import Mathlib

/-!
# Sealing subsystem: remote sealer and local nonce search

A shallow embedding of `consensus/ethash/sealer.go`.

* Go maps are `Finmap`s (finite partial functions, extensional equality).
* `uint64` values are `Nat`s reduced modulo `2 ^ 64` where the source computes on them.
* A Go runtime panic (nil dereference, division by zero) is the result `none`
  of a handler: the program dies and nothing is answered afterwards.
* Byte strings are lists of naturals below 256, most significant byte first.
-/

namespace Sealer

/-! ## Data model -/

/-- Modelled from the spec: `common.Hash` is declared outside the files under study;
it is a 32-byte digest, kept here as its list of bytes. -/
abbrev Hash := List Nat

/-- Modelled from the spec: `common.Address`, the byte string naming a miner. -/
abbrev Address := List Nat

/-- Modelled from the spec: `types.Header` is declared outside the files under study.
The sealer reads the difficulty and the number, and sets the nonce and the mix digest;
all the remaining fields (parent hash, coinbase, roots, gas, time, extra data) are
carried along untouched in `rest`. -/
structure Header where
  difficulty : Nat
  number : Nat
  nonce : Nat
  mixDigest : Hash
  rest : List Nat
deriving DecidableEq, Repr

/-- Modelled from the spec: `types.Block` is declared outside the files under study:
a header together with a body (transactions, uncles) the sealer never inspects. -/
structure Block where
  header : Header
  body : List Nat
deriving DecidableEq, Repr

/-- The method `block.Header()`: a copy of the header. -/
def Block.Header (b : Block) : Sealer.Header := b.header

/-- The method `block.WithSeal(header)`: the same body under the given header. -/
def Block.WithSeal (b : Block) (h : Sealer.Header) : Block := { b with header := h }

/-- The method `block.Number()`. -/
def Block.Number (b : Block) : Nat := b.header.number

/-- The method `block.NumberU64()`: the low 64 bits of the number. -/
def Block.NumberU64 (b : Block) : Nat := b.header.number % 2 ^ 64

/-- The method `block.Difficulty()`. -/
def Block.Difficulty (b : Block) : Nat := b.header.difficulty

/-- The constant `staleThreshold`: the maximum depth of an acceptable stale solution. -/
def staleThreshold : Nat := 7

/-- The error `errNoMiningWork`. -/
def errNoMiningWork : String := "no mining work available yet"

/-- The error `errInvalidSealResult`. -/
def errInvalidSealResult : String := "invalid or stale proof-of-work solution"

/-- The parts of the engine `*Ethash` that the sealer calls and that live outside
the files under study: the seal hash of a header, seal verification (`true` when
`verifySeal` returns a nil error), the seed hash of a block number, and the
BLAKE3 digest `blake3.Sum256`. -/
structure Ethash where
  SealHash : Header → Hash
  verifySeal : Header → Bool
  SeedHash : Nat → List Nat
  Sum256 : List Nat → List Nat

/-- The struct `hashrate` as stored in `rates`: the submitted rate and the time of
submission `ping`, in nanoseconds. -/
structure hashrate where
  ping : Int
  rate : Nat
deriving DecidableEq, Repr

/-- The array `[4]string` of a work package: `currentWork[0..3]`. -/
structure WorkPackage where
  w0 : String
  w1 : String
  w2 : String
  w3 : String
deriving DecidableEq, Repr

/-- The state owned by the actor `remoteSealer`: the pending work by seal hash, the
hash-rate samples by source id, the current block (nil before the first push), the
current work package, the sink of the latest task (a nil channel before the first
push) and the `noverify` switch. -/
structure remoteSealer where
  works : Finmap (fun _ : Hash => Block)
  rates : Finmap (fun _ : Hash => hashrate)
  currentBlock : Option Block
  currentWork : WorkPackage
  results : Option Nat
  noverify : Bool
deriving DecidableEq

/-- The constructor `startRemoteSealer`: empty maps, no current block, no sink. -/
def startRemoteSealer (noverify : Bool) : remoteSealer :=
  { works := ∅, rates := ∅, currentBlock := none,
    currentWork := ⟨"", "", "", ""⟩, results := none, noverify := noverify }

/-! ## submitWork -/

/-- The log line written by `submitWork` on the path it leaves by: "Work submitted but
none pending", "Invalid proof-of-work submitted", "Work accepted", "Sealing result not
read by miner", "Work too old". -/
inductive submitLog where
  | nonePending
  | invalidPow
  | accepted
  | notRead
  | tooOld
deriving DecidableEq, Repr

/-- What a call of `submitWork` that returns has done: its boolean result, the block
it sent on `s.results` (if any), and the last line it logged. -/
structure submitOutcome where
  ret : Bool
  sent : Option Block
  log : submitLog
deriving DecidableEq, Repr

/-- The method `remoteSealer.submitWork`. `sinkReady` tells whether a receiver is
waiting on the results channel at the moment of the non-blocking send (a nil channel
is never ready). The result `none` is a nil-pointer panic on `s.currentBlock`. -/
def submitWork (E : Ethash) (s : remoteSealer) (sinkReady : Bool)
    (nonce : Nat) (mixDigest sealhash : Hash) (_minerAddress : Address) :
    Option submitOutcome :=
  match s.works.lookup sealhash with
  | none =>
    -- the warning evaluates s.currentBlock.NumberU64()
    match s.currentBlock with
    | none => none
    | some _ => some ⟨false, none, .nonePending⟩
  | some block =>
    let header : Header := { block.Header with nonce := nonce, mixDigest := mixDigest }
    if !s.noverify && !E.verifySeal header then
      some ⟨false, none, .invalidPow⟩
    else
      let solution := block.WithSeal header
      match s.currentBlock with
      | none => none
      | some cur =>
        if (solution.NumberU64 + staleThreshold) % 2 ^ 64 > cur.NumberU64 then
          if sinkReady && s.results.isSome then
            some ⟨true, some solution, .accepted⟩
          else
            some ⟨false, none, .notRead⟩
        else
          some ⟨false, none, .tooOld⟩

/-- The block that a call of `submitWork` put on the results sink, if any. -/
def published (r : Option submitOutcome) : Option Block := r.bind (·.sent)

/-- The boolean a call of `submitWork` returned, if it returned. -/
def returned (r : Option submitOutcome) : Option Bool := r.map (·.ret)

/-! ## Big integers, bytes and hex strings -/

/-- Modelled from the spec: the variable `two256` is declared outside the files under
study; it is the bound `2 ^ 256` that targets are computed from. -/
def two256 : Nat := 2 ^ 256

/-- The call `new(big.Int).Div(x, y)`: the quotient, a division-by-zero panic when
`y` is zero. -/
def bigDiv (x y : Nat) : Option Nat := if y = 0 then none else some (x / y)

/-- The loop of `bigBytes`: prepends the base-256 digits of `n` to `acc`. -/
def bigBytesAux : Nat → Nat → List Nat → List Nat
  | 0, _, acc => acc
  | fuel + 1, n, acc => if n = 0 then acc else bigBytesAux fuel (n / 256) (n % 256 :: acc)

/-- The method `(*big.Int).Bytes`: the big-endian bytes of a natural, without leading
zeros (empty for zero). -/
def bigBytes (n : Nat) : List Nat := bigBytesAux n n []

/-- The method `(*big.Int).SetBytes`: the natural a big-endian byte string stands for. -/
def setBytes (bs : List Nat) : Nat := bs.foldl (fun acc b => acc * 256 + b) 0

/-- Modelled from the spec: `common.BytesToHash` lives outside the files under study.
A hash has 32 bytes: a longer input keeps its last 32 bytes, a shorter one is
left-padded with zeros. -/
def BytesToHash (b : List Nat) : Hash :=
  let b := if b.length > 32 then b.drop (b.length - 32) else b
  List.replicate (32 - b.length) 0 ++ b

/-- The lower-case digit of `encoding/hex` for a value below 16. -/
def hexChar (n : Nat) : Char := "0123456789abcdef".toList.getD n '0'

/-- The function `hex.Encode`: two hex digits per byte, high nibble first. -/
def hexEncode (bs : List Nat) : List Char :=
  bs.flatMap (fun b => [hexChar (b / 16 % 16), hexChar (b % 16)])

/-- Modelled from the spec: the method `Hash.Hex` lives outside the files under study:
the `0x`-prefixed hex of the bytes. -/
def Hex (h : Hash) : String := String.mk ('0' :: 'x' :: hexEncode h)

/-- Modelled from the spec: `hexutil.EncodeBig` lives outside the files under study:
`0x` followed by the hex digits of the number without leading zeros (`0x0` for zero). -/
def EncodeBig (n : Nat) : String := String.mk ('0' :: 'x' :: Nat.toDigits 16 n)

/-- The value of one hex digit, as `encoding/hex` reads it. -/
def fromHexChar (c : Char) : Option Nat :=
  if '0' ≤ c ∧ c ≤ '9' then some (c.toNat - '0'.toNat)
  else if 'a' ≤ c ∧ c ≤ 'f' then some (c.toNat - 'a'.toNat + 10)
  else if 'A' ≤ c ∧ c ≤ 'F' then some (c.toNat - 'A'.toNat + 10)
  else none

/-- The natural that a string of hex digits stands for, most significant digit first. -/
def hexValue (cs : List Char) : Option Nat :=
  cs.foldl (fun acc c => acc.bind (fun a => (fromHexChar c).map (fun d => a * 16 + d))) (some 0)

/-- Decoding of a `0x`-prefixed hex string as a big-endian unsigned integer. -/
def decodeHex (s : String) : Option Nat :=
  match s.data with
  | '0' :: 'x' :: cs => hexValue cs
  | _ => none

/-! ## makeWork and the actor loop -/

/-- The method `remoteSealer.makeWork`: fills the work package from the block and
records the block as current and under its seal hash. The result `none` is the
division-by-zero panic of a zero difficulty. -/
def makeWork (E : Ethash) (s : remoteSealer) (block : Block) : Option remoteSealer :=
  let hash := E.SealHash block.Header
  match bigDiv two256 block.Difficulty with
  | none => none
  | some target =>
    some { s with
      currentWork :=
        { w0 := Hex hash,
          w1 := Hex (BytesToHash (E.SeedHash block.NumberU64)),
          w2 := Hex (BytesToHash (bigBytes target)),
          w3 := EncodeBig block.Number },
      currentBlock := some block,
      works := s.works.insert hash block }

/-- A Go loop `for k, v := range m { if p(k, v) { delete(m, k) } }`: every entry is
visited once and deleted when `p` holds of it. -/
def deleteWhere {V : Type} (p : Hash → V → Bool) (m : Finmap (fun _ : Hash => V)) :
    Finmap (fun _ : Hash => V) :=
  m.foldl (fun acc k v => if p k v then acc.erase k else acc)
    (by
      intro d a₁ b₁ a₂ b₂
      by_cases h₁ : p a₁ b₁ <;> by_cases h₂ : p a₂ b₂ <;> simp [h₁, h₂]
      exact Finmap.erase_erase)
    m

/-- One second, in the nanoseconds of `time.Duration`. -/
def second : Int := 1000000000

/-- The call `time.Since(t)` at the instant `now`: the elapsed nanoseconds, saturated
to the range of `time.Duration` (an `int64`). -/
def since (now t : Int) : Int := max (-(2 ^ 63)) (min (2 ^ 63 - 1) (now - t))

/-- The loop of the `fetchRateCh` case: the `uint64` sum of all the rates in the map. -/
def totalRate (rates : Finmap (fun _ : Hash => hashrate)) : Nat :=
  rates.foldl (fun total _ r => (total + r.rate) % 2 ^ 64)
    (by intro d a₁ b₁ a₂ b₂; simp only; omega)
    0

/-- The `ticker.C` case of the loop at the instant `now` (the clock read once for the
whole case): drops the hash-rate samples older than ten seconds and, when there is a
current block, the work that is `staleThreshold` or more blocks behind it. -/
def tick (s : remoteSealer) (now : Int) : remoteSealer :=
  let rates := deleteWhere (fun _ r => decide (since now r.ping > 10 * second)) s.rates
  match s.currentBlock with
  | none => { s with rates := rates }
  | some cur =>
    { s with
      rates := rates,
      works := deleteWhere
        (fun _ b => decide ((b.NumberU64 + staleThreshold) % 2 ^ 64 ≤ cur.NumberU64)) s.works }

/-- The messages the loop of the actor selects on: a `sealTask` on `workCh`, a
`sealWork` on `fetchWorkCh`, a `mineResult` on `submitWorkCh` (with the readiness of
the results sink at that moment), a `hashrate` on `submitRateCh`, a request on
`fetchRateCh`, and a firing of the ticker. -/
inductive Request where
  | work (block : Block) (results : Nat)
  | fetchWork
  | submitWork (nonce : Nat) (mixDigest hash : Hash) (minerAddress : Address)
      (sinkReady : Bool)
  | submitRate (id : Hash) (rate : Nat)
  | fetchRate
  | tick
deriving DecidableEq

/-- What the loop sends back to the requester: nothing (`done`), an error or a work
package on the channels of a `sealWork`, an error or nil on `errc` of a `mineResult`,
or the total on a rate request. -/
inductive Response where
  | done
  | workErr (err : String)
  | workRes (work : WorkPackage)
  | submitErr (err : Option String)
  | rate (total : Nat)
deriving DecidableEq

/-- The effect of one iteration of the loop: the next state, the reply to the
requester and the block put on the results sink, if any. -/
structure stepResult where
  state : remoteSealer
  reply : Response
  sent : Option Block
deriving DecidableEq

/-- One iteration of `remoteSealer.loop` on the request selected at the instant
`now`. The result `none` is a panic of the handler, which ends the program. The call
of `notifyWork` after a push only starts the notification requests and leaves the
state alone; the `requestExit` case ends the loop and answers nothing. -/
def loop (E : Ethash) (now : Int) (s : remoteSealer) : Request → Option stepResult
  | .work block results =>
    (makeWork E { s with results := some results } block).map
      fun s1 => ⟨s1, .done, none⟩
  | .fetchWork =>
    match s.currentBlock with
    | none => some ⟨s, .workErr errNoMiningWork, none⟩
    | some _ => some ⟨s, .workRes s.currentWork, none⟩
  | .submitWork nonce mixDigest hash minerAddress sinkReady =>
    (submitWork E s sinkReady nonce mixDigest hash minerAddress).map fun out =>
      if out.ret then ⟨s, .submitErr none, out.sent⟩
      else ⟨s, .submitErr (some errInvalidSealResult), out.sent⟩
  | .submitRate id rate =>
    some ⟨{ s with rates := s.rates.insert id ⟨now, rate⟩ }, .done, none⟩
  | .fetchRate => some ⟨s, .rate (totalRate s.rates), none⟩
  | .tick => some ⟨tick s now, .done, none⟩

/-- The loop run over the requests in arrival order, each with the instant it is
handled at, from the state `s`: the final state and the replies, or `none` when a
handler panicked. -/
def run (E : Ethash) : remoteSealer → List (Int × Request) →
    Option (remoteSealer × List Response)
  | s, [] => some (s, [])
  | s, (now, req) :: rest =>
    match loop E now s req with
    | none => none
    | some r =>
      match run E r.state rest with
      | none => none
      | some (s1, replies) => some (s1, r.reply :: replies)

/-! ## The local worker -/

/-- The constant `iterCount` of `mine`: the number of re-hashing rounds. -/
def iterCount : Nat := 312688

/-- The call `binary.BigEndian.PutUint64`: the eight big-endian bytes of a `uint64`. -/
def putUint64 (n : Nat) : List Nat :=
  (List.range 8).map (fun i => n / 256 ^ (7 - i) % 256)

/-- The digest `hashResult` that `mine` computes for a nonce: the hash of the seal
hash followed by the nonce bytes, hashed again `iterCount` times. -/
def powDigest (E : Ethash) (sealHash : Hash) (nonce : Nat) : List Nat :=
  E.Sum256^[iterCount] (E.Sum256 (sealHash ++ putUint64 nonce))

/-- How a run of `mine` ends: on the abort signal, with the sealed block handed over
on `found`, or with the sealed block discarded because abort won the hand-over. -/
inductive mineEnd where
  | aborted
  | reported (b : Block)
  | discarded (b : Block)
deriving DecidableEq, Repr

/-- The variables of the search loop of `mine`: the attempt counter, the nonce, and
the values passed to `hashrate.Mark` so far, oldest first. -/
structure mineState where
  attempts : Nat
  nonce : Nat
  marks : List Nat
deriving DecidableEq, Repr

/-- One iteration of the `search` loop of `mine`. `aborted` tells whether the abort
channel is closed when the select runs, `handoff` whether a found block is received
on `found` before abort. The second component is the way the loop ends, when this
iteration ends it. -/
def mineStep (E : Ethash) (block : Block) (header : Header) (target : Nat)
    (aborted handoff : Bool) (st : mineState) : mineState × Option mineEnd :=
  if aborted then
    ({ st with marks := st.marks ++ [st.attempts] }, some .aborted)
  else
    let attempts := st.attempts + 1
    let st1 : mineState :=
      if attempts % 2 ^ 15 = 0 then { st with attempts := 0, marks := st.marks ++ [attempts] }
      else { st with attempts := attempts }
    let sealHash := E.SealHash header
    let hashResult := powDigest E sealHash st.nonce
    if setBytes hashResult ≤ target then
      let sealed : Header := { header with nonce := st.nonce, mixDigest := BytesToHash hashResult }
      (st1, some (if handoff then .reported (block.WithSeal sealed)
        else .discarded (block.WithSeal sealed)))
    else
      ({ st1 with nonce := (st.nonce + 1) % 2 ^ 64 }, none)

/-- The `search` loop of `mine` from iteration `i`, for at most `fuel` iterations;
`none` when the loop is still running after them. -/
def mineLoop (E : Ethash) (block : Block) (header : Header) (target : Nat)
    (abort : Nat → Bool) (handoff : Bool) : Nat → Nat → mineState →
    Option (mineState × mineEnd)
  | 0, _, _ => none
  | fuel + 1, i, st =>
    match mineStep E block header target (abort i) handoff st with
    | (st1, some e) => some (st1, e)
    | (st1, none) => mineLoop E block header target abort handoff fuel (i + 1) st1

/-- The target that `mine` computes on entry, `two256 / header.Difficulty`; `none` is
the division-by-zero panic. -/
def mineTarget (block : Block) : Option Nat := bigDiv two256 block.Header.difficulty

/-- The method `Ethash.mine` for the block, from the nonce `seed`, observed for at
most `fuel` iterations of its loop. The outer `none` is the panic of a zero
difficulty, the inner `none` a loop still running. -/
def mine (E : Ethash) (block : Block) (seed : Nat) (abort : Nat → Bool) (handoff : Bool)
    (fuel : Nat) : Option (Option (mineState × mineEnd)) :=
  (mineTarget block).map fun target =>
    mineLoop E block block.Header target abort handoff fuel 0 ⟨0, seed, []⟩

/-- The latest pushed block after one more request: the block of a `work` request,
the previous one otherwise. -/
def latestBlock (acc : Option Block) (r : Int × Request) : Option Block :=
  match r.2 with
  | .work block _ => some block
  | _ => acc

/-- The block of the latest `work` request among the requests, if there is one. -/
def lastPushed (reqs : List (Int × Request)) : Option Block :=
  reqs.foldl latestBlock none

/-! ## Seal: starting the local workers -/

/-- The settings of the engine that `Seal` reads: whether `PowMode` is `ModeFake` or
`ModeFullFake`, whether a shared engine is set (`ethash.shared != nil`), the
configured thread count `ethash.threads` (a Go `int`), and whether a remote sealer is
set (`ethash.remote != nil`). -/
structure sealConfig where
  fake : Bool
  shared : Bool
  threads : Int
  remote : Bool
deriving DecidableEq, Repr

/-- What a call of `Seal` has done when it returns: offered the block sealed with a zero
nonce (fake modes), delegated to the shared engine, failed to obtain a random seed, or
started a search: whether the block was pushed to the remote sealer, and the local
workers started, each with its id and starting nonce, in the order of the loop. -/
inductive sealStart where
  | fakeSealed (block : Block)
  | delegated
  | seedError
  | searching (pushed : Bool) (workers : List (Nat × Nat))
deriving DecidableEq, Repr

/-- The random source `Seal` draws from: the one of the session, or, when the session
has none yet (`ethash.rand == nil`), the one freshly seeded from `crypto/rand`. -/
def sealRand (rand fresh : Option (Nat → Nat)) : Option (Nat → Nat) :=
  match rand with
  | some draws => some draws
  | none => fresh

/-- The method `Ethash.Seal` up to the start of its workers. `numCPU` is the value of
`runtime.NumCPU()`; `rand` is the random source of the session, `ethash.rand`, given
as the sequence of values its next calls of `Int63` return (`none` when it is nil),
and `fresh` the source that seeding from `crypto/rand` creates (`none` when reading
the seed fails). Worker `i` is started with the nonce `uint64(ethash.rand.Int63())` of
draw `i`, a value below `2 ^ 63`. -/
def Seal (cfg : sealConfig) (numCPU : Int) (rand fresh : Option (Nat → Nat))
    (block : Block) : sealStart :=
  if cfg.fake then
    .fakeSealed (block.WithSeal { block.Header with nonce := 0, mixDigest := List.replicate 32 0 })
  else if cfg.shared then
    .delegated
  else
    match sealRand rand fresh with
    | none => .seedError
    | some draws =>
      let threads := cfg.threads
      let threads := if threads = 0 then numCPU else threads
      let threads := if threads < 0 then 0 else threads
      .searching cfg.remote
        ((List.range threads.toNat).map (fun i => (i, draws i % 2 ^ 63)))

/-- The workers a call of `Seal` started; none when it did not start a search. -/
def sealStart.workers : sealStart → List (Nat × Nat)
  | .searching _ workers => workers
  | _ => []

/-! ## Epochs and rewards (package shared) -/

/-- The call `strings.Split(s, ".")` on the characters of `s`. -/
def splitDot : List Char → List (List Char)
  | [] => [[]]
  | c :: cs =>
    if c = '.' then [] :: splitDot cs
    else
      match splitDot cs with
      | [] => [[c]]
      | p :: ps => (c :: p) :: ps

/-- The digits of a decimal number read by `SetString`: at least one, all in `0..9`. -/
def parseDigits (cs : List Char) : Option Nat :=
  if cs = [] then none
  else cs.foldl (fun acc c => acc.bind (fun a =>
    if '0' ≤ c ∧ c ≤ '9' then some (a * 10 + (c.toNat - '0'.toNat)) else none)) (some 0)

/-- The call `SetString(s, 10)` of `math/big`: an optional sign followed by decimal
digits; `none` when the string is not of that form. -/
def parseBig10 (cs : List Char) : Option Int :=
  match cs with
  | '+' :: ds => (parseDigits ds).map (fun n => (n : Int))
  | '-' :: ds => (parseDigits ds).map (fun n => -(n : Int))
  | ds => (parseDigits ds).map (fun n => (n : Int))

/-- The outcome of `coinsToWei`: a panic (of `strings.Repeat` on a negative count), a
big integer whose value is undefined because `SetString` failed, or an amount in
Wei. -/
inductive weiResult where
  | panic
  | undefined
  | wei (amount : Int)
deriving DecidableEq, Repr

/-- The amount of a successful conversion. -/
def weiResult.toOption : weiResult → Option Int
  | .wei amount => some amount
  | _ => none

/-- The function `coinsToWei`. Lengths are counted in characters, which are Go's bytes
on ASCII strings. -/
def coinsToWei (coins : String) : weiResult :=
  let parts := splitDot coins.data
  let intPart := parts.headD []
  let fracPart := match parts with
    | _ :: f :: _ => f
    | _ => []
  -- strings.Repeat("0", 18-len(fracPart)) panics on a negative count
  if 18 < fracPart.length then .panic
  else
    let fracPart := fracPart ++ List.replicate (18 - fracPart.length) '0'
    let fracPart := if fracPart.length > 18 then fracPart.take 18 else fracPart
    match parseBig10 (intPart ++ fracPart) with
    | none => .undefined
    | some amount => .wei amount

/-- The struct `Epoch`; the rewards are amounts in Wei. -/
structure Epoch where
  Name : String
  StartBlock : Nat
  TotalReward : Int
  MinerReward : Int
  StakingReward : Int
  DevFund : Int
  MinerAddress : Option Address
deriving DecidableEq, Repr

/-- One element of the composite literal `epochs`: the rewards go through `coinsToWei`,
the miner address is left nil. The result is `none` when a conversion fails. -/
def mkEpoch (name : String) (startBlock : Nat) (total miner staking dev : String) :
    Option Epoch :=
  (coinsToWei total).toOption.bind fun t =>
  (coinsToWei miner).toOption.bind fun m =>
  (coinsToWei staking).toOption.bind fun s =>
  (coinsToWei dev).toOption.bind fun d =>
  some ⟨name, startBlock, t, m, s, d, none⟩

/-- The variable `epochs` as the initialisation of the package computes it; `none` if
the initialisation fails. -/
def epochs : Option (List Epoch) :=
  [ mkEpoch "Freedom" 1 "9.0" "7.5" "0.0" "1.5",
    mkEpoch "Unity" 51 "9.0" "5.8" "1.7" "1.5",
    mkEpoch "Justice" 101 "8.5" "5.1" "2.2" "1.2",
    mkEpoch "Equality" 151 "8.0" "4.2" "2.8" "1.0",
    mkEpoch "Prosperity" 201 "7.5" "3.0" "3.6" "0.9",
    mkEpoch "Integrity" 251 "7.0" "3.2" "3.0" "0.75",
    mkEpoch "Valor" 301 "6.5" "3.4" "2.5" "0.6",
    mkEpoch "Wisdom" 351 "6.0" "3.7" "1.8" "0.5",
    mkEpoch "Peace" 401 "5.5" "3.8" "1.3" "0.4",
    mkEpoch "Legacy" 451 "5.0" "3.6" "1.0" "0.4",
    mkEpoch "Finality" 501 "4.5" "3.3" "0.8" "0.4" ].mapM id

/-- The body of `GetCurrentEpoch` over a table: the last entry whose start block is at
most the block number, the first entry when there is none; `none` is the fatal exit
on an empty table. -/
def currentEpochIn (table : List Epoch) (blockNumber : Nat) : Option Epoch :=
  match table with
  | [] => none
  | first :: _ =>
    some ((table.reverse.find? (fun e => decide (blockNumber ≥ e.StartBlock))).getD first)

/-- The function `GetCurrentEpoch` on the table `epochs`. -/
def GetCurrentEpoch (blockNumber : Nat) : Option Epoch :=
  epochs.bind (fun table => currentEpochIn table blockNumber)

/-- The values of the table `epochs`, written out in Wei. -/
def epochValues : List Epoch :=
  [ ⟨"Freedom", 1, 9000000000000000000, 7500000000000000000, 0, 1500000000000000000, none⟩,
    ⟨"Unity", 51, 9000000000000000000, 5800000000000000000, 1700000000000000000,
      1500000000000000000, none⟩,
    ⟨"Justice", 101, 8500000000000000000, 5100000000000000000, 2200000000000000000,
      1200000000000000000, none⟩,
    ⟨"Equality", 151, 8000000000000000000, 4200000000000000000, 2800000000000000000,
      1000000000000000000, none⟩,
    ⟨"Prosperity", 201, 7500000000000000000, 3000000000000000000, 3600000000000000000,
      900000000000000000, none⟩,
    ⟨"Integrity", 251, 7000000000000000000, 3200000000000000000, 3000000000000000000,
      750000000000000000, none⟩,
    ⟨"Valor", 301, 6500000000000000000, 3400000000000000000, 2500000000000000000,
      600000000000000000, none⟩,
    ⟨"Wisdom", 351, 6000000000000000000, 3700000000000000000, 1800000000000000000,
      500000000000000000, none⟩,
    ⟨"Peace", 401, 5500000000000000000, 3800000000000000000, 1300000000000000000,
      400000000000000000, none⟩,
    ⟨"Legacy", 451, 5000000000000000000, 3600000000000000000, 1000000000000000000,
      400000000000000000, none⟩,
    ⟨"Finality", 501, 4500000000000000000, 3300000000000000000, 800000000000000000,
      400000000000000000, none⟩ ]

/-- The number a string of decimal digits stands for. -/
def decVal (cs : List Char) : Nat :=
  cs.foldl (fun a c => a * 10 + (c.toNat - '0'.toNat)) 0

/-! ## Example data -/

/-- A block of difficulty 4 and number `n`. -/
def exBlock (n : Nat) : Block := ⟨⟨4, n, 0, [], [n]⟩, [n]⟩

/-- An engine whose seal hash of a header is the one-element list of its number,
which accepts exactly the nonce 42, and whose digests are all zero. -/
def exEngine : Ethash :=
  { SealHash := fun h => [h.number],
    verifySeal := fun h => h.nonce == 42,
    SeedHash := fun _ => List.replicate 32 0,
    Sum256 := fun _ => List.replicate 32 0 }

/-- A state holding work for blocks 93 and 100, block 100 being current. -/
def exState : remoteSealer :=
  { works := (Finmap.singleton [93] (exBlock 93)).insert [100] (exBlock 100),
    rates := ∅, currentBlock := some (exBlock 100),
    currentWork := ⟨"", "", "", ""⟩, results := some 0, noverify := false }

/-- An engine like `exEngine` whose digests are all `0xff..ff`. -/
def exHardEngine : Ethash :=
  { SealHash := fun h => [h.number],
    verifySeal := fun h => h.nonce == 42,
    SeedHash := fun _ => List.replicate 32 0,
    Sum256 := fun _ => List.replicate 32 255 }

/-- A block of number 100 and difficulty `2 ^ 256`, whose target is 1. -/
def exHardBlock : Block := ⟨⟨2 ^ 256, 100, 0, [], []⟩, []⟩

/-- A run of the actor: the push of block 100, a tick and a fetch of work. -/
def exRun : List (Int × Request) :=
  [(0, .work (exBlock 100) 1), (5, .tick), (6, .fetchWork)]

/-- The state of the actor after the run `exRun` from the initial state. -/
def exAfterRun : remoteSealer :=
  { works := Finmap.singleton [100] (exBlock 100),
    rates := ∅,
    currentBlock := some (exBlock 100),
    currentWork :=
      ⟨"0x64", "0x0000000000000000000000000000000000000000000000000000000000000000",
        "0x4000000000000000000000000000000000000000000000000000000000000000", "0x64"⟩,
    results := some 1,
    noverify := false }

/-- A 32-byte hash function for examples: it leaves a 32-byte input as it is, and
sends any other input to all zeros when its last byte is 1 and to all `0xff`
otherwise. -/
def exWrapSum256 (x : List Nat) : List Nat :=
  if x.length = 32 then x
  else if x.getLast? = some 1 then List.replicate 32 0
  else List.replicate 32 255

/-- An engine like `exEngine` whose hash function is `exWrapSum256`: a nonce meets a
target below `2 ^ 256 - 1` exactly when its last byte is 1. -/
def exWrapEngine : Ethash :=
  { SealHash := fun h => [h.number],
    verifySeal := fun h => h.nonce == 42,
    SeedHash := fun _ => List.replicate 32 0,
    Sum256 := exWrapSum256 }

/-! ## Theorems on submitWork -/

/-- C1: `submitWork` puts a block on the results sink only if the seal hash has an entry
in `works`, verification is disabled or `verifySeal` accepts the entry's header with
the submitted nonce and mix digest, and the entry's number plus 7 exceeds the number
of the current block. The block sent is the entry with the nonce and the mix digest
replaced and every other field as it was. With verification enabled, a header that
`verifySeal` rejects makes `submitWork` return false and send nothing. -/
theorem submitWork_publishes_only_valid (E : Ethash) (s : remoteSealer) (sinkReady : Bool)
    (nonce : Nat) (mixDigest sealhash : Hash) (minerAddress : Address) :
    (∀ blk, published (submitWork E s sinkReady nonce mixDigest sealhash minerAddress) = some blk →
      ∃ entry cur, s.works.lookup sealhash = some entry ∧
        (s.noverify = true ∨
          E.verifySeal { entry.header with nonce := nonce, mixDigest := mixDigest } = true) ∧
        s.currentBlock = some cur ∧ entry.NumberU64 + 7 > cur.NumberU64 ∧
        blk.header.nonce = nonce ∧ blk.header.mixDigest = mixDigest ∧
        blk.header.difficulty = entry.header.difficulty ∧
        blk.header.number = entry.header.number ∧
        blk.header.rest = entry.header.rest ∧ blk.body = entry.body) ∧
    (∀ entry, s.works.lookup sealhash = some entry → s.noverify = false →
      E.verifySeal { entry.header with nonce := nonce, mixDigest := mixDigest } = false →
      submitWork E s sinkReady nonce mixDigest sealhash minerAddress
        = some ⟨false, none, .invalidPow⟩) := by
  refine ⟨?_, ?_⟩
  · intro blk hpub
    unfold published submitWork at hpub
    cases hw : s.works.lookup sealhash with
    | none =>
      rw [hw] at hpub
      cases hc : s.currentBlock <;> rw [hc] at hpub <;> cases hpub
    | some entry =>
      rw [hw] at hpub
      dsimp only at hpub
      refine ⟨entry, ?_⟩
      by_cases hv : (!s.noverify && !E.verifySeal
          { entry.Header with nonce := nonce, mixDigest := mixDigest }) = true
      · rw [if_pos hv] at hpub; cases hpub
      · rw [if_neg hv] at hpub
        cases hc : s.currentBlock with
        | none => rw [hc] at hpub; cases hpub
        | some cur =>
          rw [hc] at hpub
          dsimp only at hpub
          by_cases hs : (Block.NumberU64 (entry.WithSeal
              { entry.Header with nonce := nonce, mixDigest := mixDigest }) + staleThreshold)
              % 2 ^ 64 > cur.NumberU64
          · rw [if_pos hs] at hpub
            by_cases hr : (sinkReady && s.results.isSome) = true
            · rw [if_pos hr] at hpub
              cases hpub
              refine ⟨cur, rfl, ?_, rfl, ?_, rfl, rfl, rfl, rfl, rfl, rfl⟩
              · simp only [Block.Header] at hv
                cases hn : s.noverify
                · right
                  simpa [hn] using hv
                · left; rfl
              · have hle := Nat.mod_le (Block.NumberU64 (entry.WithSeal
                    { entry.Header with nonce := nonce, mixDigest := mixDigest })
                    + staleThreshold) (2 ^ 64)
                simp only [Block.NumberU64, Block.WithSeal, Block.Header, staleThreshold]
                  at hs hle ⊢
                omega
            · rw [if_neg hr] at hpub; cases hpub
          · rw [if_neg hs] at hpub; cases hpub
  · intro entry hw hn hv
    unfold submitWork
    rw [hw]
    simp [hn, hv, Block.Header]

/-- C1, at an instance: a valid solution for the current block 100 is published with
the submitted nonce 42 and mix digest. -/
theorem submitWork_publishes_only_valid_witness :
    published (submitWork exEngine exState true 42 [1] [100] [])
        = some ⟨⟨4, 100, 42, [1], [100]⟩, [100]⟩ ∧
      ∃ entry cur, exState.works.lookup [100] = some entry ∧
        (exState.noverify = true ∨
          exEngine.verifySeal { entry.header with nonce := 42, mixDigest := [1] } = true) ∧
        exState.currentBlock = some cur ∧ entry.NumberU64 + 7 > cur.NumberU64 ∧
        (⟨⟨4, 100, 42, [1], [100]⟩, [100]⟩ : Block).header.nonce = 42 ∧
        (⟨⟨4, 100, 42, [1], [100]⟩, [100]⟩ : Block).header.mixDigest = [1] ∧
        (⟨⟨4, 100, 42, [1], [100]⟩, [100]⟩ : Block).header.difficulty
          = entry.header.difficulty ∧
        (⟨⟨4, 100, 42, [1], [100]⟩, [100]⟩ : Block).header.number = entry.header.number ∧
        (⟨⟨4, 100, 42, [1], [100]⟩, [100]⟩ : Block).header.rest = entry.header.rest ∧
        (⟨⟨4, 100, 42, [1], [100]⟩, [100]⟩ : Block).body = entry.body :=
  ⟨by decide,
    (submitWork_publishes_only_valid exEngine exState true 42 [1] [100] []).1 _ (by decide)⟩

/-- C2: with a work item of number `n` under the seal hash (`n + 7` below `2 ^ 64`),
a current block of number `tip`, verification passed or disabled and a ready results
sink, `submitWork` returns, and returns true exactly when `n + 7 > tip`: it rejects at
`n + 7 = tip` and below, and accepts from `n + 6 = tip` upwards. -/
theorem submitWork_accepts_iff_fresh (E : Ethash) (s : remoteSealer)
    (nonce : Nat) (mixDigest sealhash : Hash) (minerAddress : Address)
    (entry cur : Block) (sink : Nat)
    (hwork : s.works.lookup sealhash = some entry)
    (hcur : s.currentBlock = some cur)
    (hn : entry.header.number + 7 < 2 ^ 64)
    (hver : s.noverify = true ∨
      E.verifySeal { entry.header with nonce := nonce, mixDigest := mixDigest } = true)
    (hsink : s.results = some sink) :
    returned (submitWork E s true nonce mixDigest sealhash minerAddress)
        = some (decide (entry.header.number + 7 > cur.NumberU64)) ∧
      (returned (submitWork E s true nonce mixDigest sealhash minerAddress) = some true ↔
        entry.header.number + 7 > cur.NumberU64) ∧
      (entry.header.number + 7 = cur.NumberU64 →
        returned (submitWork E s true nonce mixDigest sealhash minerAddress) = some false) ∧
      (entry.header.number + 6 = cur.NumberU64 →
        returned (submitWork E s true nonce mixDigest sealhash minerAddress) = some true) := by
  have hv : (!s.noverify && !E.verifySeal
      { entry.Header with nonce := nonce, mixDigest := mixDigest }) = false := by
    simp only [Block.Header]
    rcases hver with h | h <;> simp [h]
  have hmod : (Block.NumberU64 (entry.WithSeal
      { entry.Header with nonce := nonce, mixDigest := mixDigest }) + staleThreshold) % 2 ^ 64
      = entry.header.number + 7 := by
    simp only [Block.NumberU64, Block.WithSeal, Block.Header, staleThreshold]
    have h1 : entry.header.number % 2 ^ 64 = entry.header.number :=
      Nat.mod_eq_of_lt (by omega)
    rw [h1]
    exact Nat.mod_eq_of_lt hn
  have key : returned (submitWork E s true nonce mixDigest sealhash minerAddress)
      = some (decide (entry.header.number + 7 > cur.NumberU64)) := by
    unfold returned submitWork
    rw [hwork]
    simp only [hv, hcur, hmod, hsink]
    by_cases h : entry.header.number + 7 > cur.NumberU64 <;> simp [h]
  refine ⟨key, ?_, ?_, ?_⟩
  · rw [key]; simp
  · intro h; rw [key]; simp; omega
  · intro h; rw [key]; simp; omega

/-- C2, at an instance: the item of block 93 against the tip 100 sits exactly on the
boundary and is rejected. -/
theorem submitWork_accepts_iff_fresh_witness :
    returned (submitWork exEngine exState true 42 [1] [93] [])
        = some (decide ((exBlock 93).header.number + 7 > (exBlock 100).NumberU64)) ∧
      (returned (submitWork exEngine exState true 42 [1] [93] []) = some true ↔
        (exBlock 93).header.number + 7 > (exBlock 100).NumberU64) ∧
      ((exBlock 93).header.number + 7 = (exBlock 100).NumberU64 →
        returned (submitWork exEngine exState true 42 [1] [93] []) = some false) ∧
      ((exBlock 93).header.number + 6 = (exBlock 100).NumberU64 →
        returned (submitWork exEngine exState true 42 [1] [93] []) = some true) :=
  submitWork_accepts_iff_fresh exEngine exState 42 [1] [93] [] (exBlock 93) (exBlock 100) 0
    (by decide) (by decide) (by decide) (Or.inr (by decide)) (by decide)

/-- If the seal hash has no work item but a current block is set, `submitWork`
returns false for lack of pending work and sends nothing. -/
theorem submitWork_unknown_hash (E : Ethash) (s : remoteSealer) (sinkReady : Bool)
    (nonce : Nat) (mixDigest sealhash : Hash) (minerAddress : Address) (cur : Block)
    (hwork : s.works.lookup sealhash = none) (hcur : s.currentBlock = some cur) :
    submitWork E s sinkReady nonce mixDigest sealhash minerAddress
      = some ⟨false, none, .nonePending⟩ := by
  unfold submitWork
  rw [hwork, hcur]

/-- C3, refuted as stated: the solution for the current block 100 has a work item, passes
verification and is not stale, yet with the sink not ready `submitWork` returns false. -/
theorem submitWork_sink_not_ready_counterexample :
    exState.works.lookup [100] = some (exBlock 100) ∧
      exEngine.verifySeal { (exBlock 100).header with nonce := 42, mixDigest := [1] } = true ∧
      exState.currentBlock = some (exBlock 100) ∧
      (exBlock 100).NumberU64 + 7 > (exBlock 100).NumberU64 ∧
      submitWork exEngine exState false 42 [1] [100] [] = some ⟨false, none, .notRead⟩ ∧
      returned (submitWork exEngine exState false 42 [1] [100] []) ≠ some true := by
  decide

/-- C3, amended: a submission with a matching work item that passes verification (or
with verification disabled) and is not stale is answered false when the results sink
is not ready: `submitWork` returns false and sends nothing, the submitter gets the
error of an invalid or stale solution, and the state of the sealer is unchanged, so
the sealed block is dropped and not retried. -/
theorem submitWork_sink_not_ready (E : Ethash) (s : remoteSealer) (sinkReady : Bool)
    (nonce : Nat) (mixDigest sealhash : Hash) (minerAddress : Address)
    (entry cur : Block) (now : Int)
    (hwork : s.works.lookup sealhash = some entry)
    (hcur : s.currentBlock = some cur)
    (hver : s.noverify = true ∨
      E.verifySeal { entry.header with nonce := nonce, mixDigest := mixDigest } = true)
    (hfresh : (entry.NumberU64 + staleThreshold) % 2 ^ 64 > cur.NumberU64)
    (hsink : sinkReady = false ∨ s.results = none) :
    submitWork E s sinkReady nonce mixDigest sealhash minerAddress
        = some ⟨false, none, .notRead⟩ ∧
      loop E now s (.submitWork nonce mixDigest sealhash minerAddress sinkReady)
        = some ⟨s, .submitErr (some errInvalidSealResult), none⟩ := by
  have hv : (!s.noverify && !E.verifySeal
      { entry.Header with nonce := nonce, mixDigest := mixDigest }) = false := by
    simp only [Block.Header]
    rcases hver with h | h <;> simp [h]
  have hr : (sinkReady && s.results.isSome) = false := by
    rcases hsink with h | h <;> simp [h]
  have key : submitWork E s sinkReady nonce mixDigest sealhash minerAddress
      = some ⟨false, none, .notRead⟩ := by
    unfold submitWork
    rw [hwork]
    dsimp only
    rw [hv, hcur]
    dsimp only
    have hfresh2 : (Block.NumberU64 (entry.WithSeal
        { entry.Header with nonce := nonce, mixDigest := mixDigest }) + staleThreshold)
        % 2 ^ 64 > cur.NumberU64 := hfresh
    rw [if_neg (by simp), if_pos hfresh2, hr, if_neg (by simp)]
  refine ⟨key, ?_⟩
  simp only [loop, key, Option.map_some]
  rfl

/-- C3 amended, at an instance: block 100 against the tip 100 with the sink not ready. -/
theorem submitWork_sink_not_ready_witness :
    submitWork exEngine exState false 42 [1] [100] [] = some ⟨false, none, .notRead⟩ ∧
      loop exEngine 0 exState (.submitWork 42 [1] [100] [] false)
        = some ⟨exState, .submitErr (some errInvalidSealResult), none⟩ :=
  submitWork_sink_not_ready exEngine exState false 42 [1] [100] [] (exBlock 100) (exBlock 100) 0
    (by decide) (by decide) (Or.inr (by decide)) (by decide) (Or.inl rfl)

/-- C4, violated by the code: in the initial state (no block pushed) a submission finds no
work item and the warning dereferences the missing current block, so `submitWork`
panics instead of returning false, and the loop dies instead of answering. -/
theorem submitWork_initial_state_panics (E : Ethash) (noverify sinkReady : Bool)
    (nonce : Nat) (mixDigest sealhash : Hash) (minerAddress : Address) (now : Int) :
    submitWork E (startRemoteSealer noverify) sinkReady nonce mixDigest sealhash minerAddress
        = none ∧
      loop E now (startRemoteSealer noverify)
        (.submitWork nonce mixDigest sealhash minerAddress sinkReady) = none := by
  have key : submitWork E (startRemoteSealer noverify) sinkReady nonce mixDigest sealhash
      minerAddress = none := by
    unfold submitWork
    have h : (startRemoteSealer noverify).works.lookup sealhash = none :=
      Finmap.lookup_empty sealhash
    rw [h]
    rfl
  exact ⟨key, by simp only [loop, key, Option.map_none']⟩

/-! ## Theorems on the actor loop -/

/-- C5, violated by the code: from the initial state, a submission followed by a fetch
of work gets no answer at all: the loop panics on the submission (the missing
current block is dereferenced), so the fetch never returns the error of no work. -/
theorem fetchWork_after_early_submit_panics (E : Ethash) (noverify sinkReady : Bool)
    (nonce : Nat) (mixDigest sealhash : Hash) (minerAddress : Address) (t0 t1 : Int) :
    run E (startRemoteSealer noverify)
      [(t0, .submitWork nonce mixDigest sealhash minerAddress sinkReady), (t1, .fetchWork)]
      = none := by
  have key : submitWork E (startRemoteSealer noverify) sinkReady nonce mixDigest sealhash
      minerAddress = none := by
    unfold submitWork
    have h : (startRemoteSealer noverify).works.lookup sealhash = none :=
      Finmap.lookup_empty sealhash
    rw [h]
    rfl
  simp only [run, loop, key, Option.map_none']

/-! ## Bytes and hex strings -/

/-- Folding big-endian bytes from an accumulator shifts the accumulator. -/
theorem setBytes_foldl (bs : List Nat) (a : Nat) :
    bs.foldl (fun acc b => acc * 256 + b) a = a * 256 ^ bs.length + setBytes bs := by
  unfold setBytes
  induction bs generalizing a with
  | nil => simp
  | cons b bs ih =>
    simp only [List.foldl_cons, List.length_cons]
    rw [ih (a * 256 + b), ih (0 * 256 + b)]
    ring

/-- The value of a byte string with a leading byte. -/
theorem setBytes_cons (b : Nat) (bs : List Nat) :
    setBytes (b :: bs) = b * 256 ^ bs.length + setBytes bs := by
  have h := setBytes_foldl bs (0 * 256 + b)
  simp only [Nat.zero_mul, Nat.zero_add] at h
  simpa [setBytes] using h

/-- Leading zero bytes do not change the value. -/
theorem setBytes_zeros (k : Nat) (bs : List Nat) :
    setBytes (List.replicate k 0 ++ bs) = setBytes bs := by
  induction k with
  | zero => simp
  | succ k ih =>
    rw [List.replicate_succ, List.cons_append, setBytes_cons, ih]
    simp

/-- The bytes produced by `bigBytesAux` stand for the number, shifted past `acc`. -/
theorem setBytes_bigBytesAux (fuel n : Nat) (acc : List Nat) (h : n ≤ fuel) :
    setBytes (bigBytesAux fuel n acc) = n * 256 ^ acc.length + setBytes acc := by
  induction fuel generalizing n acc with
  | zero =>
    have : n = 0 := by omega
    subst this
    simp [bigBytesAux]
  | succ fuel ih =>
    unfold bigBytesAux
    by_cases hn : n = 0
    · subst hn; simp
    · rw [if_neg hn, ih (n / 256) (n % 256 :: acc) (by omega), setBytes_cons]
      simp only [List.length_cons, pow_succ]
      have hdiv := Nat.div_add_mod n 256
      calc n / 256 * (256 ^ acc.length * 256) + (n % 256 * 256 ^ acc.length + setBytes acc)
          = (256 * (n / 256) + n % 256) * 256 ^ acc.length + setBytes acc := by ring
        _ = n * 256 ^ acc.length + setBytes acc := by rw [hdiv]

/-- The method `SetBytes` undoes `Bytes`. -/
theorem setBytes_bigBytes (n : Nat) : setBytes (bigBytes n) = n := by
  unfold bigBytes
  rw [setBytes_bigBytesAux n n [] (Nat.le_refl n)]
  simp [setBytes]

/-- A number below `256 ^ k` has at most `k` bytes. -/
theorem length_bigBytesAux (fuel n k : Nat) (acc : List Nat) (h : n ≤ fuel)
    (hk : n < 256 ^ k) : (bigBytesAux fuel n acc).length ≤ k + acc.length := by
  induction fuel generalizing n k acc with
  | zero => simp [bigBytesAux]
  | succ fuel ih =>
    unfold bigBytesAux
    by_cases hn : n = 0
    · rw [if_pos hn]; omega
    · rw [if_neg hn]
      cases k with
      | zero => simp at hk; omega
      | succ k =>
        have h1 : n / 256 < 256 ^ k := by
          rw [Nat.div_lt_iff_lt_mul (by norm_num)]
          rw [pow_succ] at hk
          exact hk
        have := ih (n / 256) k (n % 256 :: acc) (by omega) h1
        simp only [List.length_cons] at this
        omega

/-- Every byte produced by `bigBytesAux` is below 256. -/
theorem bigBytesAux_lt (fuel n : Nat) (acc : List Nat) (hacc : ∀ b ∈ acc, b < 256) :
    ∀ b ∈ bigBytesAux fuel n acc, b < 256 := by
  induction fuel generalizing n acc with
  | zero => simpa [bigBytesAux] using hacc
  | succ fuel ih =>
    unfold bigBytesAux
    by_cases hn : n = 0
    · rw [if_pos hn]; exact hacc
    · rw [if_neg hn]
      apply ih
      intro b hb
      rcases List.mem_cons.mp hb with rfl | hb
      · exact Nat.mod_lt _ (by norm_num)
      · exact hacc b hb

/-- A hex digit reads back as its value. -/
theorem fromHexChar_hexChar (d : Nat) (h : d < 16) : fromHexChar (hexChar d) = some d := by
  interval_cases d <;> decide

/-- Reading the hex of a byte string from an accumulator. -/
theorem hexValue_foldl (bs : List Nat) (hbs : ∀ b ∈ bs, b < 256) (a : Nat) :
    (hexEncode bs).foldl
        (fun acc c => acc.bind (fun a => (fromHexChar c).map (fun d => a * 16 + d))) (some a)
      = some (bs.foldl (fun acc b => acc * 256 + b) a) := by
  induction bs generalizing a with
  | nil => simp [hexEncode]
  | cons b bs ih =>
    have hb : b < 256 := hbs b (List.mem_cons_self _ _)
    have h1 : fromHexChar (hexChar (b / 16 % 16)) = some (b / 16 % 16) :=
      fromHexChar_hexChar _ (Nat.mod_lt _ (by norm_num))
    have h2 : fromHexChar (hexChar (b % 16)) = some (b % 16) :=
      fromHexChar_hexChar _ (Nat.mod_lt _ (by norm_num))
    have h3 : (a * 16 + b / 16 % 16) * 16 + b % 16 = a * 256 + b := by omega
    have ih2 := ih (fun x hx => hbs x (List.mem_cons_of_mem _ hx)) (a * 256 + b)
    simp only [hexEncode, List.flatMap_cons, List.cons_append, List.nil_append,
      List.foldl_cons, Option.some_bind, h1, h2, Option.map_some', h3] at ih2 ⊢
    exact ih2

/-- Decoding the hex of a byte string gives the value of the bytes. -/
theorem decodeHex_Hex (bs : List Nat) (hbs : ∀ b ∈ bs, b < 256) :
    decodeHex (Hex bs) = some (setBytes bs) := by
  simp only [decodeHex, Hex, hexValue]
  exact hexValue_foldl bs hbs 0

/-- The hex of a byte string has two digits per byte. -/
theorem length_hexEncode (bs : List Nat) : (hexEncode bs).length = 2 * bs.length := by
  induction bs with
  | nil => simp [hexEncode]
  | cons b bs ih =>
    simp only [hexEncode, List.flatMap_cons, List.length_append, List.length_cons,
      List.length_nil] at ih ⊢
    omega

/-- A byte string of at most 32 bytes is left-padded to exactly 32 bytes. -/
theorem BytesToHash_short (bs : List Nat) (h : bs.length ≤ 32) :
    BytesToHash bs = List.replicate (32 - bs.length) 0 ++ bs := by
  unfold BytesToHash
  have : ¬ bs.length > 32 := by omega
  simp only [this, if_false]

/-! ## Targets -/

/-- A positive difficulty gives the target `2 ^ 256 / D` on entry to `mine`. -/
theorem mineTarget_pos (block : Block) (hD : 0 < block.Header.difficulty) :
    mineTarget block = some (2 ^ 256 / block.Header.difficulty) := by
  unfold mineTarget bigDiv two256
  rw [if_neg (by omega)]

/-- C6: for a positive difficulty `D` the worker `mine` computes the target
`2 ^ 256 / D` (integer floor), and an iteration of its loop at the nonce `n` ends the
search with the block sealed by `n` exactly when the digest, read as a big-endian
unsigned integer, is at most that target; a digest equal to the target is a
solution, and otherwise the loop moves on to the next nonce. -/
theorem mine_target_and_solution (E : Ethash) (block : Block) (n : Nat) (handoff : Bool)
    (st : mineState) (hD : 0 < block.Header.difficulty) :
    mineTarget block = some (2 ^ 256 / block.Header.difficulty) ∧
      (((mineStep E block block.Header (2 ^ 256 / block.Header.difficulty) false handoff
          { st with nonce := n }).2).isSome = true ↔
        setBytes (powDigest E (E.SealHash block.Header) n)
          ≤ 2 ^ 256 / block.Header.difficulty) ∧
      (setBytes (powDigest E (E.SealHash block.Header) n) = 2 ^ 256 / block.Header.difficulty →
        ((mineStep E block block.Header (2 ^ 256 / block.Header.difficulty) false handoff
          { st with nonce := n }).2).isSome = true) ∧
      mine E block n (fun _ => false) handoff 1 =
        some (if setBytes (powDigest E (E.SealHash block.Header) n)
            ≤ 2 ^ 256 / block.Header.difficulty then
          some (⟨1, n, []⟩,
            if handoff then
              .reported (block.WithSeal { block.Header with
                nonce := n,
                mixDigest := BytesToHash (powDigest E (E.SealHash block.Header) n) })
            else
              .discarded (block.WithSeal { block.Header with
                nonce := n,
                mixDigest := BytesToHash (powDigest E (E.SealHash block.Header) n) }))
        else none) := by
  have htarget := mineTarget_pos block hD
  unfold mine
  rw [htarget]
  generalize 2 ^ 256 / block.Header.difficulty = T
  generalize hd : setBytes (powDigest E (E.SealHash block.Header) n) = d
  have hstep : ((mineStep E block block.Header T false handoff
      { st with nonce := n }).2).isSome = true ↔ d ≤ T := by
    unfold mineStep
    by_cases h : d ≤ T
    · simp [h, hd]
    · simp [h, hd]
  refine ⟨rfl, hstep, fun h => hstep.mpr (le_of_eq h), ?_⟩
  simp only [Option.map_some', mineLoop, mineStep]
  by_cases h : d ≤ T
  · simp [h, hd]
  · simp [h, hd]

/-- C6, at an instance: difficulty 4, all-zero digests, nonce 5. -/
theorem mine_target_and_solution_witness :
    mineTarget (exBlock 100) = some (2 ^ 256 / (exBlock 100).Header.difficulty) ∧
      (((mineStep exEngine (exBlock 100) (exBlock 100).Header
          (2 ^ 256 / (exBlock 100).Header.difficulty) false true
          { (⟨0, 0, []⟩ : mineState) with nonce := 5 }).2).isSome = true ↔
        setBytes (powDigest exEngine (exEngine.SealHash (exBlock 100).Header) 5)
          ≤ 2 ^ 256 / (exBlock 100).Header.difficulty) :=
  have h := mine_target_and_solution exEngine (exBlock 100) 5 true ⟨0, 0, []⟩ (by decide)
  ⟨h.1, h.2.1⟩

/-- C7, refuted as stated: at difficulty 1 the quotient `2 ^ 256` needs 33 bytes, the
32-byte target field of the work package is all zeros and decodes to 0, while the
local worker compares against `2 ^ 256`. -/
theorem makeWork_target_difficulty_one_counterexample :
    (makeWork exEngine (startRemoteSealer false) ⟨⟨1, 100, 0, [], []⟩, []⟩).map
        (fun s => s.currentWork.w2)
        = some "0x0000000000000000000000000000000000000000000000000000000000000000" ∧
      (makeWork exEngine (startRemoteSealer false) ⟨⟨1, 100, 0, [], []⟩, []⟩).map
        (fun s => decodeHex s.currentWork.w2) = some (some 0) ∧
      (makeWork exEngine (startRemoteSealer false) ⟨⟨1, 100, 0, [], []⟩, []⟩).map
        (fun s => decodeHex s.currentWork.w2) ≠ some (some (2 ^ 256 / 1)) ∧
      mineTarget ⟨⟨1, 100, 0, [], []⟩, []⟩ = some (2 ^ 256 / 1) := by
  decide

/-- C7, amended: for a pushed block of difficulty `D` at least 2, `makeWork` succeeds and
the third field of the work package is `0x` followed by 64 hex digits that decode,
as a big-endian unsigned integer, to `2 ^ 256 / D`, the target the local worker
compares against. -/
theorem makeWork_target_hex (E : Ethash) (s : remoteSealer) (block : Block)
    (hD : 2 ≤ block.Difficulty) :
    ∃ s1, makeWork E s block = some s1 ∧
      decodeHex s1.currentWork.w2 = some (2 ^ 256 / block.Difficulty) ∧
      (∃ digits, s1.currentWork.w2 = String.mk ('0' :: 'x' :: digits) ∧ digits.length = 64) ∧
      mineTarget block = some (2 ^ 256 / block.Difficulty) := by
  have hlt : 2 ^ 256 / block.Difficulty < 256 ^ 32 := by
    have h1 : 2 ^ 256 / block.Difficulty ≤ 2 ^ 256 / 2 := Nat.div_le_div_left hD (by norm_num)
    have h2 : (2 : Nat) ^ 256 / 2 < 256 ^ 32 := by norm_num
    omega
  have hlen : (bigBytes (2 ^ 256 / block.Difficulty)).length ≤ 32 := by
    have := length_bigBytesAux _ _ 32 [] (Nat.le_refl (2 ^ 256 / block.Difficulty)) hlt
    simpa [bigBytes] using this
  have hbytes : ∀ b ∈ bigBytes (2 ^ 256 / block.Difficulty), b < 256 :=
    bigBytesAux_lt _ _ [] (by simp)
  have hhash : ∀ b ∈ BytesToHash (bigBytes (2 ^ 256 / block.Difficulty)), b < 256 := by
    rw [BytesToHash_short _ hlen]
    intro b hb
    rcases List.mem_append.mp hb with hb | hb
    · rw [List.mem_replicate] at hb
      omega
    · exact hbytes b hb
  have hdiv : bigDiv two256 block.Difficulty = some (2 ^ 256 / block.Difficulty) := by
    unfold bigDiv two256
    rw [if_neg (by omega)]
  refine ⟨_, by unfold makeWork; rw [hdiv], ?_, ?_, mineTarget_pos block (by
    have : block.Header.difficulty = block.Difficulty := rfl
    omega)⟩
  · dsimp only
    rw [decodeHex_Hex _ hhash, BytesToHash_short _ hlen, setBytes_zeros, setBytes_bigBytes]
  · refine ⟨hexEncode (BytesToHash (bigBytes (2 ^ 256 / block.Difficulty))), rfl, ?_⟩
    rw [length_hexEncode, BytesToHash_short _ hlen, List.length_append, List.length_replicate]
    omega

/-- C7 amended, at an instance: difficulty 4 gives the target `2 ^ 256 / 4`. -/
theorem makeWork_target_hex_witness :
    ∃ s1, makeWork exEngine (startRemoteSealer false) (exBlock 100) = some s1 ∧
      decodeHex s1.currentWork.w2 = some (2 ^ 256 / (exBlock 100).Difficulty) ∧
      (∃ digits, s1.currentWork.w2 = String.mk ('0' :: 'x' :: digits) ∧ digits.length = 64) ∧
      mineTarget (exBlock 100) = some (2 ^ 256 / (exBlock 100).Difficulty) :=
  makeWork_target_hex exEngine (startRemoteSealer false) (exBlock 100) (by decide)

/-! ## Range-and-delete loops over maps -/

/-- Deleting along a list of entries keeps a key exactly when it was there and no
listed entry under that key satisfies the test. -/
theorem lookup_foldl_erase {V : Type} (p : Hash → V → Bool)
    (l : List (Sigma fun _ : Hash => V)) (acc : Finmap (fun _ : Hash => V))
    (k : Hash) (v : V) :
    (l.foldl (fun acc e => if p e.1 e.2 then acc.erase e.1 else acc) acc).lookup k = some v ↔
      acc.lookup k = some v ∧ ∀ e ∈ l, e.1 = k → p e.1 e.2 = false := by
  induction l generalizing acc with
  | nil => simp
  | cons e l ih =>
    rw [List.foldl_cons, ih]
    have hstep : (if p e.1 e.2 then acc.erase e.1 else acc).lookup k = some v ↔
        acc.lookup k = some v ∧ (e.1 = k → p e.1 e.2 = false) := by
      by_cases hp : p e.1 e.2 = true
      · rw [if_pos hp]
        by_cases hk : k = e.1
        · subst hk
          rw [Finmap.lookup_erase]
          simp [hp]
        · rw [Finmap.lookup_erase_ne hk]
          constructor
          · intro h
            exact ⟨h, fun h2 => absurd h2.symm hk⟩
          · intro h
            exact h.1
      · rw [if_neg hp]
        simp only [Bool.not_eq_true] at hp
        simp [hp]
    rw [hstep]
    simp only [List.mem_cons, forall_eq_or_imp]
    tauto

/-- After a range-and-delete loop a key is bound exactly when it was bound before to
a value that fails the test, and it is bound to that same value. -/
theorem lookup_deleteWhere {V : Type} (p : Hash → V → Bool)
    (m : Finmap (fun _ : Hash => V)) (k : Hash) (v : V) :
    (deleteWhere p m).lookup k = some v ↔ m.lookup k = some v ∧ p k v = false := by
  induction m using Finmap.induction_on with
  | _ al =>
    have hfold : deleteWhere p (AList.toFinmap al) =
        al.entries.foldl (fun acc e => if p e.1 e.2 then acc.erase e.1 else acc)
          (AList.toFinmap al) := rfl
    rw [hfold, lookup_foldl_erase]
    constructor
    · rintro ⟨h1, h2⟩
      refine ⟨h1, ?_⟩
      have hmem : (⟨k, v⟩ : Sigma fun _ : Hash => V) ∈ al.entries := by
        have := Finmap.lookup_eq_some_iff.mp h1
        simpa using this
      exact h2 ⟨k, v⟩ hmem rfl
    · rintro ⟨h1, h2⟩
      refine ⟨h1, ?_⟩
      rintro ⟨k1, v1⟩ hmem hk
      simp only at hk
      subst hk
      have h3 : (AList.toFinmap al).lookup k1 = some v1 := by
        apply Finmap.lookup_eq_some_iff.mpr
        simpa using hmem
      rw [h1] at h3
      cases h3
      exact h2

/-- After a range-and-delete loop a key that was unbound stays unbound. -/
theorem lookup_deleteWhere_none {V : Type} (p : Hash → V → Bool)
    (m : Finmap (fun _ : Hash => V)) (k : Hash) (h : m.lookup k = none) :
    (deleteWhere p m).lookup k = none := by
  cases hd : (deleteWhere p m).lookup k with
  | none => rfl
  | some v =>
    have := ((lookup_deleteWhere p m k v).mp hd).1
    rw [h] at this
    cases this

/-- After a range-and-delete loop a key bound to a value that satisfies the test is
unbound. -/
theorem lookup_deleteWhere_of_true {V : Type} (p : Hash → V → Bool)
    (m : Finmap (fun _ : Hash => V)) (k : Hash) (v : V) (h : m.lookup k = some v)
    (hp : p k v = true) : (deleteWhere p m).lookup k = none := by
  cases hd : (deleteWhere p m).lookup k with
  | none => rfl
  | some w =>
    have h2 := (lookup_deleteWhere p m k w).mp hd
    rw [h] at h2
    have hw : v = w := Option.some.inj h2.1
    subst hw
    rw [hp] at h2
    cases h2.2

/-- The `uint64` loop sum from an accumulator is the plain sum reduced modulo `2 ^ 64`. -/
theorem foldl_rate_eq (l : List (Sigma fun _ : Hash => hashrate)) (a : Nat)
    (ha : a < 2 ^ 64) :
    l.foldl (fun total e => (total + e.2.rate) % 2 ^ 64) a
      = (a + (l.map (fun e => e.2.rate)).sum) % 2 ^ 64 := by
  induction l generalizing a with
  | nil =>
    simp only [List.foldl_nil, List.map_nil, List.sum_nil, Nat.add_zero]
    exact (Nat.mod_eq_of_lt ha).symm
  | cons e l ih =>
    rw [List.foldl_cons, ih _ (Nat.mod_lt _ (by norm_num)), List.map_cons, List.sum_cons]
    omega

/-- The total computed by the loop over `rates` is the sum of all the rates in the
map, modulo `2 ^ 64`. -/
theorem totalRate_eq_sum (rates : Finmap (fun _ : Hash => hashrate)) :
    totalRate rates = (rates.entries.map (fun e => e.2.rate)).sum % 2 ^ 64 := by
  induction rates using Finmap.induction_on with
  | _ al =>
    have hfold : totalRate (AList.toFinmap al) =
        al.entries.foldl (fun total e => (total + e.2.rate) % 2 ^ 64) 0 := rfl
    rw [hfold, foldl_rate_eq _ 0 (by norm_num)]
    simp

/-- The keys after an insertion are the old keys and the inserted one. -/
theorem keys_insert_eq {V : Type} (m : Finmap (fun _ : Hash => V)) (k : Hash) (v : V) :
    (m.insert k v).keys = insert k m.keys := by
  ext a
  simp [Finmap.mem_keys, Finmap.mem_insert]

/-- A map that binds a key holds exactly one entry under that key. -/
theorem card_entries_of_lookup {V : Type} (m : Finmap (fun _ : Hash => V)) (k : Hash) (v : V)
    (h : m.lookup k = some v) :
    Multiset.card (m.entries.filter (fun e => e.1 = k)) = 1 := by
  have hnd : (m.entries.filter (fun e => e.1 = k)).Nodup :=
    Multiset.Nodup.filter _ m.nodup_entries
  have heq : m.entries.filter (fun e => e.1 = k) = {(⟨k, v⟩ : Sigma fun _ : Hash => V)} := by
    rw [Multiset.Nodup.ext hnd (Multiset.nodup_singleton _)]
    rintro ⟨k1, v1⟩
    rw [Multiset.mem_filter, Multiset.mem_singleton]
    constructor
    · rintro ⟨hmem, hk⟩
      simp only at hk
      subst hk
      have h1 := Finmap.lookup_eq_some_iff.mpr hmem
      rw [h] at h1
      cases h1
      rfl
    · intro he
      cases he
      exact ⟨Finmap.lookup_eq_some_iff.mp h, rfl⟩
  rw [heq]
  rfl

/-! ## PushWork, FetchTotalHashRate and the cleanup tick -/

/-- C8: handling the push of a block twice in a row leaves `works`, `currentBlock` and
`currentWork` as handling it once does (a block of zero difficulty panics the first
time already). For a positive difficulty both pushes succeed, `works` binds the seal
hash of the block to the block in exactly one entry, has at most one key more than
before the first push, and is unchanged under every other seal hash. -/
theorem pushWork_idempotent (E : Ethash) (s : remoteSealer) (block : Block)
    (results results2 : Nat) (now now2 : Int) :
    ((loop E now s (.work block results)).bind
        (fun r => loop E now2 r.state (.work block results2))).map
        (fun r => (r.state.works, r.state.currentBlock, r.state.currentWork))
      = (loop E now s (.work block results)).map
        (fun r => (r.state.works, r.state.currentBlock, r.state.currentWork)) ∧
    (0 < block.Difficulty →
      ∃ r1 r2, loop E now s (.work block results) = some r1 ∧
        loop E now2 r1.state (.work block results2) = some r2 ∧
        r2.state.works = r1.state.works ∧
        r2.state.currentBlock = r1.state.currentBlock ∧
        r2.state.currentWork = r1.state.currentWork ∧
        r1.state.currentBlock = some block ∧
        r1.state.works.lookup (E.SealHash block.Header) = some block ∧
        Multiset.card (r2.state.works.entries.filter
          (fun e => e.1 = E.SealHash block.Header)) = 1 ∧
        r1.state.works.keys.card ≤ s.works.keys.card + 1 ∧
        r2.state.works.keys.card = r1.state.works.keys.card ∧
        ∀ h, h ≠ E.SealHash block.Header → r1.state.works.lookup h = s.works.lookup h) := by
  cases hdiv : bigDiv two256 block.Difficulty with
  | none =>
    refine ⟨by simp [loop, makeWork, hdiv], ?_⟩
    intro hD
    unfold bigDiv at hdiv
    rw [if_neg (by omega)] at hdiv
    cases hdiv
  | some target =>
    refine ⟨by simp [loop, makeWork, hdiv, Finmap.insert_insert], ?_⟩
    intro _
    have h1 : ∀ (t : Int) (s0 : remoteSealer) (res : Nat),
        loop E t s0 (.work block res) = some
          ⟨{ s0 with
              results := some res,
              currentWork :=
                { w0 := Hex (E.SealHash block.Header),
                  w1 := Hex (BytesToHash (E.SeedHash block.NumberU64)),
                  w2 := Hex (BytesToHash (bigBytes target)),
                  w3 := EncodeBig block.Number },
              currentBlock := some block,
              works := s0.works.insert (E.SealHash block.Header) block }, .done, none⟩ := by
      intro t s0 res
      simp only [loop, makeWork, hdiv, Option.map_some']
    refine ⟨_, _, h1 now s results, h1 now2 _ results2, ?_, rfl, rfl, rfl, ?_, ?_, ?_, ?_, ?_⟩
    · exact Finmap.insert_insert _
    · exact Finmap.lookup_insert _
    · exact card_entries_of_lookup _ _ block (Finmap.lookup_insert _)
    · simp only [keys_insert_eq]
      exact Finset.card_insert_le _ _
    · simp only [Finmap.insert_insert]
    · intro h hne
      exact Finmap.lookup_insert_of_ne _ hne

/-- C8, at an instance: block 100 pushed twice onto the state that already holds work
for blocks 93 and 100. -/
theorem pushWork_idempotent_witness :
    ∃ r1 r2, loop exEngine 0 exState (.work (exBlock 100) 1) = some r1 ∧
      loop exEngine 5 r1.state (.work (exBlock 100) 2) = some r2 ∧
      r2.state.works = r1.state.works ∧
      r2.state.currentBlock = r1.state.currentBlock ∧
      r2.state.currentWork = r1.state.currentWork ∧
      r1.state.currentBlock = some (exBlock 100) ∧
      r1.state.works.lookup (exEngine.SealHash (exBlock 100).Header) = some (exBlock 100) ∧
      Multiset.card (r2.state.works.entries.filter
        (fun e => e.1 = exEngine.SealHash (exBlock 100).Header)) = 1 ∧
      r1.state.works.keys.card ≤ exState.works.keys.card + 1 ∧
      r2.state.works.keys.card = r1.state.works.keys.card ∧
      ∀ h, h ≠ exEngine.SealHash (exBlock 100).Header →
        r1.state.works.lookup h = exState.works.lookup h :=
  (pushWork_idempotent exEngine exState (exBlock 100) 1 2 0 5).2 (by decide)

/-- C10: with a current block of number `tip`, a cleanup tick keeps every work item whose
number `n` (with `n + 7` below `2 ^ 64`) satisfies `n + 7 > tip`, unchanged, removes
every one with `n + 7 ≤ tip`, adds nothing, and a submission made afterwards against a
removed seal hash is rejected for lack of pending work. -/
theorem tick_evicts_stale_work (E : Ethash) (s : remoteSealer) (now : Int) (cur : Block)
    (hcur : s.currentBlock = some cur) :
    (∀ h b, s.works.lookup h = some b → b.header.number + 7 < 2 ^ 64 →
      (tick s now).works.lookup h
        = if b.header.number + 7 > cur.NumberU64 then some b else none) ∧
    (∀ h, s.works.lookup h = none → (tick s now).works.lookup h = none) ∧
    (∀ h b sinkReady nonce mixDigest minerAddress, s.works.lookup h = some b →
      b.header.number + 7 < 2 ^ 64 → b.header.number + 7 ≤ cur.NumberU64 →
      submitWork E (tick s now) sinkReady nonce mixDigest h minerAddress
        = some ⟨false, none, .nonePending⟩) := by
  have hworks : (tick s now).works = deleteWhere
      (fun _ b => decide ((b.NumberU64 + staleThreshold) % 2 ^ 64 ≤ cur.NumberU64)) s.works := by
    unfold tick
    rw [hcur]
  have hcur2 : (tick s now).currentBlock = some cur := by
    unfold tick
    rw [hcur]
  have hmod : ∀ b : Block, b.header.number + 7 < 2 ^ 64 →
      (b.NumberU64 + staleThreshold) % 2 ^ 64 = b.header.number + 7 := by
    intro b hb
    simp only [Block.NumberU64, staleThreshold]
    rw [Nat.mod_eq_of_lt (show b.header.number < 2 ^ 64 by omega), Nat.mod_eq_of_lt hb]
  have hkeep : ∀ h b, s.works.lookup h = some b → b.header.number + 7 < 2 ^ 64 →
      (tick s now).works.lookup h
        = if b.header.number + 7 > cur.NumberU64 then some b else none := by
    intro h b hb hn
    rw [hworks]
    by_cases hfresh : b.header.number + 7 > cur.NumberU64
    · rw [if_pos hfresh]
      apply (lookup_deleteWhere _ _ _ _).mpr
      refine ⟨hb, ?_⟩
      simp only [hmod b hn, decide_eq_false_iff_not]
      omega
    · rw [if_neg hfresh]
      apply lookup_deleteWhere_of_true _ _ _ b hb
      simp only [hmod b hn, decide_eq_true_eq]
      omega
  refine ⟨hkeep, ?_, ?_⟩
  · intro h hnone
    rw [hworks]
    exact lookup_deleteWhere_none _ _ _ hnone
  · intro h b sinkReady nonce mixDigest minerAddress hb hn hstale
    apply submitWork_unknown_hash E (tick s now) sinkReady nonce mixDigest h minerAddress cur
    · rw [hkeep h b hb hn, if_neg (by omega)]
    · exact hcur2

/-- C10, at an instance: with the tip 100, the tick removes the item of block 93 and a
submission against its seal hash finds no pending work. -/
theorem tick_evicts_stale_work_witness :
    (tick exState 0).works.lookup [93]
        = (if (exBlock 93).header.number + 7 > (exBlock 100).NumberU64
          then some (exBlock 93) else none) ∧
      submitWork exEngine (tick exState 0) true 42 [1] [93] []
        = some ⟨false, none, .nonePending⟩ :=
  have h := tick_evicts_stale_work exEngine exState 0 (exBlock 100) (by decide)
  ⟨h.1 [93] (exBlock 93) (by decide) (by decide),
    h.2.2 [93] (exBlock 93) true 42 [1] [] (by decide) (by decide) (by decide)⟩

/-! ## FetchWork on the runs the loop survives -/

/-- One surviving iteration of the loop keeps the current block equal to the latest
pushed block, and the current work equal to the package `makeWork` builds from it. -/
theorem loop_keeps_current (E : Ethash) (now : Int) (s : remoteSealer) (req : Request)
    (r : stepResult) (acc : Option Block) (hstep : loop E now s req = some r)
    (hblock : s.currentBlock = acc)
    (hwork : ∀ b, acc = some b → ∀ s0 s1, makeWork E s0 b = some s1 →
      s.currentWork = s1.currentWork) :
    r.state.currentBlock = latestBlock acc (now, req) ∧
    (∀ b, latestBlock acc (now, req) = some b → ∀ s0 s1, makeWork E s0 b = some s1 →
      r.state.currentWork = s1.currentWork) := by
  unfold latestBlock
  cases req with
  | work block results =>
    simp only [loop] at hstep
    cases hdiv : bigDiv two256 block.Difficulty with
    | none => simp [makeWork, hdiv] at hstep
    | some target =>
      simp only [makeWork, hdiv, Option.map_some', Option.some.injEq] at hstep
      subst hstep
      refine ⟨rfl, ?_⟩
      intro b hb s0 s1 hs1
      cases hb
      simp only [makeWork, hdiv, Option.some.injEq] at hs1
      subst hs1
      rfl
  | fetchWork =>
    simp only [loop] at hstep
    cases hc : s.currentBlock <;> rw [hc] at hstep <;> cases hstep <;> exact ⟨hblock, hwork⟩
  | submitWork nonce mixDigest hash minerAddress sinkReady =>
    simp only [loop] at hstep
    cases hsub : submitWork E s sinkReady nonce mixDigest hash minerAddress with
    | none => simp [hsub] at hstep
    | some out =>
      simp only [hsub, Option.map_some', Option.some.injEq] at hstep
      subst hstep
      by_cases hret : out.ret = true
      · simp only [hret, if_true]; exact ⟨hblock, hwork⟩
      · simp only [hret]; exact ⟨hblock, hwork⟩
  | submitRate id rate =>
    simp only [loop, Option.some.injEq] at hstep
    subst hstep
    exact ⟨hblock, hwork⟩
  | fetchRate =>
    simp only [loop, Option.some.injEq] at hstep
    subst hstep
    exact ⟨hblock, hwork⟩
  | tick =>
    simp only [loop, Option.some.injEq] at hstep
    subst hstep
    have h1 : (tick s now).currentBlock = s.currentBlock := by
      unfold tick; cases s.currentBlock <;> rfl
    have h2 : (tick s now).currentWork = s.currentWork := by
      unfold tick; cases s.currentBlock <;> rfl
    exact ⟨h1.trans hblock, fun b hb s0 s1 hs1 => h2.trans (hwork b hb s0 s1 hs1)⟩

/-- A surviving run keeps the current block equal to the latest pushed block, and the
current work equal to the package `makeWork` builds from it. -/
theorem run_keeps_current (E : Ethash) (reqs : List (Int × Request)) (s : remoteSealer)
    (acc : Option Block) (s1 : remoteSealer) (replies : List Response)
    (hrun : run E s reqs = some (s1, replies))
    (hblock : s.currentBlock = acc)
    (hwork : ∀ b, acc = some b → ∀ s0 s2, makeWork E s0 b = some s2 →
      s.currentWork = s2.currentWork) :
    s1.currentBlock = reqs.foldl latestBlock acc ∧
    (∀ b, reqs.foldl latestBlock acc = some b → ∀ s0 s2, makeWork E s0 b = some s2 →
      s1.currentWork = s2.currentWork) := by
  induction reqs generalizing s acc replies with
  | nil =>
    simp only [run, Option.some.injEq, Prod.mk.injEq] at hrun
    rw [← hrun.1]
    exact ⟨hblock, hwork⟩
  | cons head rest ih =>
    obtain ⟨now, req⟩ := head
    simp only [run] at hrun
    cases hstep : loop E now s req with
    | none => simp [hstep] at hrun
    | some r =>
      rw [hstep] at hrun
      cases hrest : run E r.state rest with
      | none => simp [hrest] at hrun
      | some p =>
        obtain ⟨s2, replies2⟩ := p
        simp only [hrest, Option.some.injEq, Prod.mk.injEq] at hrun
        have hinv := loop_keeps_current E now s req r acc hstep hblock hwork
        rw [hrun.1] at hrest
        exact ih r.state _ replies2 hrest hinv.1 hinv.2

/-- On every run from the initial state that the loop survives, a fetch of work
handled next is answered with the error of no work when no block was pushed, and
otherwise with the package `makeWork` built from the latest pushed block. -/
theorem fetchWork_after_run (E : Ethash) (noverify : Bool) (reqs : List (Int × Request))
    (s : remoteSealer) (replies : List Response) (now : Int)
    (hrun : run E (startRemoteSealer noverify) reqs = some (s, replies)) :
    (lastPushed reqs = none →
      loop E now s .fetchWork = some ⟨s, .workErr errNoMiningWork, none⟩) ∧
    (∀ b, lastPushed reqs = some b →
      loop E now s .fetchWork = some ⟨s, .workRes s.currentWork, none⟩ ∧
      ∀ s0 s1, makeWork E s0 b = some s1 → s.currentWork = s1.currentWork) := by
  have hinv := run_keeps_current E reqs (startRemoteSealer noverify) none s replies hrun rfl
    (by intro b hb; cases hb)
  refine ⟨?_, ?_⟩
  · intro hnone
    have hc : s.currentBlock = none := hinv.1.trans hnone
    simp only [loop, hc]
  · intro b hb
    have hc : s.currentBlock = some b := hinv.1.trans hb
    exact ⟨by simp only [loop, hc], hinv.2 b hb⟩

/-! ## Frame of submitWork, hash-rate samples -/

/-- C11: whatever a submission is answered (no pending work, failed verification, stale,
sink not ready, or accepted), handling it leaves the whole state of the sealer as it
was, in particular `works`, `rates`, `currentBlock` and `currentWork`; and after an
accepted solution every further submission against the same seal hash is answered, and
not for lack of pending work. -/
theorem submitWork_keeps_state (E : Ethash) (s : remoteSealer) (now : Int) (sinkReady : Bool)
    (nonce : Nat) (mixDigest sealhash : Hash) (minerAddress : Address) (r : stepResult)
    (hstep : loop E now s (.submitWork nonce mixDigest sealhash minerAddress sinkReady)
      = some r) :
    r.state = s ∧ r.state.works = s.works ∧ r.state.rates = s.rates ∧
      r.state.currentBlock = s.currentBlock ∧ r.state.currentWork = s.currentWork ∧
      (r.reply = .submitErr none →
        (∃ entry, r.state.works.lookup sealhash = some entry) ∧
        ∀ (sinkReady2 : Bool) (nonce2 : Nat) (mixDigest2 : Hash) (minerAddress2 : Address),
          ∃ out, submitWork E r.state sinkReady2 nonce2 mixDigest2 sealhash minerAddress2
              = some out ∧ out.log ≠ .nonePending) := by
  simp only [loop] at hstep
  cases hsub : submitWork E s sinkReady nonce mixDigest sealhash minerAddress with
  | none => simp [hsub] at hstep
  | some out =>
    simp only [hsub, Option.map_some', Option.some.injEq] at hstep
    have hstate : r.state = s := by
      subst hstep
      by_cases hret : out.ret = true
      · simp only [hret, if_true]
      · simp only [hret]; rfl
    refine ⟨hstate, by rw [hstate], by rw [hstate], by rw [hstate], by rw [hstate], ?_⟩
    intro hreply
    have hret : out.ret = true := by
      subst hstep
      by_cases hret : out.ret = true
      · exact hret
      · simp [hret, errInvalidSealResult] at hreply
    rw [hstate]
    unfold submitWork at hsub
    cases hw : s.works.lookup sealhash with
    | none =>
      rw [hw] at hsub
      cases hc : s.currentBlock with
      | none => rw [hc] at hsub; cases hsub
      | some cur => rw [hc] at hsub; cases hsub; cases hret
    | some entry =>
      rw [hw] at hsub
      dsimp only at hsub
      cases hc : s.currentBlock with
      | none =>
        rw [hc] at hsub
        by_cases hv : (!s.noverify && !E.verifySeal
            { entry.Header with nonce := nonce, mixDigest := mixDigest }) = true
        · rw [if_pos hv] at hsub; cases hsub; cases hret
        · rw [if_neg hv] at hsub; cases hsub
      | some cur =>
        refine ⟨⟨entry, rfl⟩, ?_⟩
        intro sinkReady2 nonce2 mixDigest2 minerAddress2
        unfold submitWork
        rw [hw, hc]
        dsimp only
        by_cases hv2 : (!s.noverify && !E.verifySeal
            { entry.Header with nonce := nonce2, mixDigest := mixDigest2 }) = true
        · rw [if_pos hv2]
          exact ⟨_, rfl, fun h => by cases h⟩
        · rw [if_neg hv2]
          by_cases hs : (Block.NumberU64 (entry.WithSeal
              { entry.Header with nonce := nonce2, mixDigest := mixDigest2 }) + staleThreshold)
              % 2 ^ 64 > cur.NumberU64
          · rw [if_pos hs]
            by_cases hr : (sinkReady2 && s.results.isSome) = true
            · rw [if_pos hr]
              exact ⟨_, rfl, fun h => by cases h⟩
            · rw [if_neg hr]
              exact ⟨_, rfl, fun h => by cases h⟩
          · rw [if_neg hs]
            exact ⟨_, rfl, fun h => by cases h⟩

/-- C11, at an instance: the accepted solution for block 100 leaves the state as it was. -/
theorem submitWork_keeps_state_witness :
    (⟨exState, .submitErr none, some ⟨⟨4, 100, 42, [1], [100]⟩, [100]⟩⟩ : stepResult).state
        = exState ∧
      loop exEngine 0 exState (.submitWork 42 [1] [100] [] true)
        = some ⟨exState, .submitErr none, some ⟨⟨4, 100, 42, [1], [100]⟩, [100]⟩⟩ :=
  ⟨(submitWork_keeps_state exEngine exState 0 true 42 [1] [100] []
      ⟨exState, .submitErr none, some ⟨⟨4, 100, 42, [1], [100]⟩, [100]⟩⟩ (by decide)).1,
    by decide⟩

/-- C14: handling `SubmitHashRate(id, r)` at `now` binds `id` to the rate `r` with the time
`now` and leaves every other id and the rest of the state alone; the total returned
on request is the sum of the rates of all the ids in the map, modulo `2 ^ 64`; and
of two submissions from the same id only the later one is in the map. -/
theorem submitRate_last_write_wins (E : Ethash) (s : remoteSealer) (now now2 : Int)
    (id : Hash) (rate rate2 : Nat) :
    (∃ s1, loop E now s (.submitRate id rate) = some ⟨s1, .done, none⟩ ∧
      s1.rates.lookup id = some ⟨now, rate⟩ ∧
      (∀ other, other ≠ id → s1.rates.lookup other = s.rates.lookup other) ∧
      s1.works = s.works ∧ s1.currentBlock = s.currentBlock ∧
      s1.currentWork = s.currentWork ∧
      loop E now2 s1 .fetchRate
        = some ⟨s1, .rate ((s1.rates.entries.map (fun e => e.2.rate)).sum % 2 ^ 64), none⟩ ∧
      Multiset.card (s1.rates.entries.filter (fun e => e.1 = id)) = 1 ∧
      ∃ s2, loop E now2 s1 (.submitRate id rate2) = some ⟨s2, .done, none⟩ ∧
        loop E now2 s (.submitRate id rate2) = some ⟨s2, .done, none⟩ ∧
        s2.rates.lookup id = some ⟨now2, rate2⟩) := by
  refine ⟨{ s with rates := s.rates.insert id ⟨now, rate⟩ }, rfl, Finmap.lookup_insert _, ?_,
    rfl, rfl, rfl, ?_, ?_, ?_⟩
  · intro other hne
    exact Finmap.lookup_insert_of_ne _ hne
  · simp only [loop, totalRate_eq_sum]
  · exact card_entries_of_lookup _ _ _ (Finmap.lookup_insert _)
  · refine ⟨{ s with rates := s.rates.insert id ⟨now2, rate2⟩ }, ?_, rfl,
      Finmap.lookup_insert _⟩
    simp only [loop, Finmap.insert_insert]

/-! ## The search loop of the local worker -/

/-- An iteration of the loop that is not aborted, from a counter below `2 ^ 15`: either
the counter goes up by one and nothing is reported, or it reaches `2 ^ 15`, exactly
`2 ^ 15` is reported and the counter is back at 0. -/
theorem mineStep_flush (E : Ethash) (block : Block) (header : Header) (target : Nat)
    (handoff : Bool) (st : mineState) (h : st.attempts < 2 ^ 15) :
    ((mineStep E block header target false handoff st).1.marks = st.marks ∧
        (mineStep E block header target false handoff st).1.attempts = st.attempts + 1 ∧
        st.attempts + 1 < 2 ^ 15) ∨
      ((mineStep E block header target false handoff st).1.marks = st.marks ++ [2 ^ 15] ∧
        (mineStep E block header target false handoff st).1.attempts = 0) := by
  by_cases hflush : (st.attempts + 1) % 2 ^ 15 = 0
  · right
    have h15 : st.attempts + 1 = 2 ^ 15 := by omega
    by_cases hd : setBytes (powDigest E (E.SealHash header) st.nonce) ≤ target
    · simp only [mineStep, Bool.false_eq_true, if_false, hflush, if_true, hd]
      rw [h15]
      simp
    · simp only [mineStep, Bool.false_eq_true, if_false, hflush, if_true, hd]
      rw [h15]
      simp
  · left
    have hlt : st.attempts + 1 < 2 ^ 15 := by omega
    by_cases hd : setBytes (powDigest E (E.SealHash header) st.nonce) ≤ target
    · simp only [mineStep, Bool.false_eq_true, if_false, hflush, if_true, hd]
      simp
      omega
    · simp only [mineStep, Bool.false_eq_true, if_false, hflush, hd]
      simp
      omega

/-- The state of the loop after `k` iterations that neither saw the abort signal nor
found a solution: the counter is `k` modulo `2 ^ 15`, the nonce is `seed + k` modulo
`2 ^ 64`, and `2 ^ 15` has been reported once per full `2 ^ 15` attempts. -/
theorem mineLoop_skip (E : Ethash) (block : Block) (header : Header) (target : Nat)
    (abort : Nat → Bool) (handoff : Bool) (seed : Nat) (hseed : seed < 2 ^ 64) (k : Nat)
    (habort : ∀ j, j < k → abort j = false)
    (hnone : ∀ j, j < k →
      ¬ setBytes (powDigest E (E.SealHash header) ((seed + j) % 2 ^ 64)) ≤ target)
    (fuel : Nat) :
    mineLoop E block header target abort handoff (k + fuel) 0 ⟨0, seed, []⟩
      = mineLoop E block header target abort handoff fuel k
          ⟨k % 2 ^ 15, (seed + k) % 2 ^ 64, List.replicate (k / 2 ^ 15) (2 ^ 15)⟩ := by
  induction k generalizing fuel with
  | zero =>
    simp only [Nat.zero_add, Nat.zero_mod, Nat.add_zero, Nat.zero_div, List.replicate_zero,
      Nat.mod_eq_of_lt hseed]
  | succ k ih =>
    have hk : k + 1 + fuel = k + (fuel + 1) := by omega
    rw [hk, ih (fun j hj => habort j (by omega)) (fun j hj => hnone j (by omega)) (fuel + 1)]
    have ha := habort k (by omega)
    have hn := hnone k (by omega)
    have hmod : ((seed + k) % 2 ^ 64 + 1) % 2 ^ 64 = (seed + (k + 1)) % 2 ^ 64 := by omega
    rw [mineLoop]
    unfold mineStep
    simp only [ha, Bool.false_eq_true, if_false, hn, hmod]
    by_cases hflush : (k % 2 ^ 15 + 1) % 2 ^ 15 = 0
    · have h1 : (k + 1) % 2 ^ 15 = 0 := by omega
      have h2 : (k + 1) / 2 ^ 15 = k / 2 ^ 15 + 1 := by omega
      have h3 : k % 2 ^ 15 + 1 = 2 ^ 15 := by omega
      simp only [hflush, if_true]
      rw [h1, h2, h3, List.replicate_succ']
    · have h1 : (k + 1) % 2 ^ 15 = k % 2 ^ 15 + 1 := by omega
      have h2 : (k + 1) / 2 ^ 15 = k / 2 ^ 15 := by omega
      simp only [hflush, if_false]
      rw [h1, h2]

/-- C17: if `mine` first observes the abort signal at its iteration `k`, after evaluating
`k` nonces none of which met the target, then it ends aborted, the values it passed to
the hash-rate meter are `2 ^ 15` once per full `2 ^ 15` attempts followed by the
residual counter `k mod 2 ^ 15`, and they sum to exactly `k`. An iteration that
flushes reports exactly `2 ^ 15` and leaves the counter at 0. -/
theorem mine_marks_sum (E : Ethash) (block : Block) (seed : Nat) (abort : Nat → Bool)
    (handoff : Bool) (k fuel : Nat)
    (hD : 0 < block.Header.difficulty) (hseed : seed < 2 ^ 64)
    (habort : abort k = true) (hbefore : ∀ j, j < k → abort j = false)
    (hnone : ∀ j, j < k →
      ¬ setBytes (powDigest E (E.SealHash block.Header) ((seed + j) % 2 ^ 64))
        ≤ 2 ^ 256 / block.Header.difficulty)
    (hfuel : k < fuel) :
    (∃ st, mine E block seed abort handoff fuel = some (some (st, .aborted)) ∧
      st.marks = List.replicate (k / 2 ^ 15) (2 ^ 15) ++ [k % 2 ^ 15] ∧
      st.marks.sum = k) ∧
    (∀ st0 : mineState, st0.attempts < 2 ^ 15 →
      ((mineStep E block block.Header (2 ^ 256 / block.Header.difficulty) false handoff
            st0).1.marks = st0.marks ∧
          (mineStep E block block.Header (2 ^ 256 / block.Header.difficulty) false handoff
            st0).1.attempts = st0.attempts + 1 ∧
          st0.attempts + 1 < 2 ^ 15) ∨
        ((mineStep E block block.Header (2 ^ 256 / block.Header.difficulty) false handoff
            st0).1.marks = st0.marks ++ [2 ^ 15] ∧
          (mineStep E block block.Header (2 ^ 256 / block.Header.difficulty) false handoff
            st0).1.attempts = 0)) := by
  refine ⟨?_, fun st0 h0 => mineStep_flush E block block.Header _ handoff st0 h0⟩
  obtain ⟨rest, hrest⟩ : ∃ rest, fuel = k + (rest + 1) := ⟨fuel - k - 1, by omega⟩
  subst hrest
  refine ⟨⟨k % 2 ^ 15, (seed + k) % 2 ^ 64,
    List.replicate (k / 2 ^ 15) (2 ^ 15) ++ [k % 2 ^ 15]⟩, ?_, rfl, ?_⟩
  · unfold mine
    rw [mineTarget_pos block hD, Option.map_some',
      mineLoop_skip E block block.Header _ abort handoff seed hseed k hbefore hnone (rest + 1),
      mineLoop]
    unfold mineStep
    simp only [habort, if_true]
  · simp only [List.sum_append, List.sum_replicate, List.sum_cons, List.sum_nil, smul_eq_mul,
      Nat.add_zero]
    have := Nat.div_add_mod k (2 ^ 15)
    rw [Nat.mul_comm] at this
    exact this

/-- C17, at an instance: difficulty `2 ^ 256` (target 1) with digests of value `2 ^ 256 - 1`
never met, abort observed at iteration 2: the marks are `[2]`. -/
theorem mine_marks_sum_witness :
    ∃ st, mine exHardEngine exHardBlock 7 (fun i => decide (2 ≤ i)) true 5
        = some (some (st, .aborted)) ∧
      st.marks = List.replicate (2 / 2 ^ 15) (2 ^ 15) ++ [2 % 2 ^ 15] ∧
      st.marks.sum = 2 :=
  (mine_marks_sum exHardEngine exHardBlock 7 (fun i => decide (2 ≤ i)) true 2 5
    (by decide) (by decide) (by decide)
    (fun j hj => by have : ¬ 2 ≤ j := by omega
                    simp [this])
    (fun j _ => by
      have hd : ∀ n, powDigest exHardEngine (exHardEngine.SealHash exHardBlock.Header) n
          = List.replicate 32 255 := fun n => Function.iterate_fixed rfl _
      rw [hd]
      decide)
    (by decide)).1

/-- A 32-byte hash function iterated any number of times gives 32 bytes. -/
theorem length_iterate_Sum256 (E : Ethash) (hlen : ∀ x, (E.Sum256 x).length = 32)
    (m : Nat) (x : List Nat) : (E.Sum256^[m] (E.Sum256 x)).length = 32 := by
  induction m with
  | zero => exact hlen x
  | succ m _ =>
    rw [Function.iterate_succ_apply']
    exact hlen _

/-- The digest of a 32-byte hash function has 32 bytes. -/
theorem length_powDigest (E : Ethash) (hlen : ∀ x, (E.Sum256 x).length = 32)
    (sealHash : Hash) (n : Nat) : (powDigest E sealHash n).length = 32 := by
  unfold powDigest
  exact length_iterate_Sum256 E hlen iterCount (sealHash ++ putUint64 n)

/-- A byte string of 32 bytes is its own hash value. -/
theorem BytesToHash_of_length (d : List Nat) (h : d.length = 32) : BytesToHash d = d := by
  rw [BytesToHash_short _ (by omega), h]
  simp only [Nat.sub_self, List.replicate_zero, List.nil_append]

/-- The digest of a 32-byte hash function is its own hash value. -/
theorem BytesToHash_powDigest (E : Ethash) (hlen : ∀ x, (E.Sum256 x).length = 32)
    (sealHash : Hash) (n : Nat) :
    BytesToHash (powDigest E sealHash n) = powDigest E sealHash n :=
  BytesToHash_of_length _ (length_powDigest E hlen sealHash n)

/-- The nonce bytes hashed by `mine` are eight bytes standing for the nonce modulo
`2 ^ 64`, most significant byte first. -/
theorem setBytes_putUint64 (n : Nat) :
    (putUint64 n).length = 8 ∧ setBytes (putUint64 n) = n % 2 ^ 64 := by
  refine ⟨by simp [putUint64], ?_⟩
  simp only [putUint64, setBytes, List.range, List.range.loop, List.map_cons, List.map_nil,
    List.foldl_cons, List.foldl_nil]
  norm_num
  omega

/-- The example hash function returns 32 bytes. -/
theorem exWrapSum256_length (x : List Nat) : (exWrapSum256 x).length = 32 := by
  unfold exWrapSum256
  by_cases h : x.length = 32
  · rw [if_pos h]; exact h
  · rw [if_neg h]
    by_cases h1 : x.getLast? = some 1
    · rw [if_pos h1]; rfl
    · rw [if_neg h1]; rfl

/-- The example hash function leaves its own outputs as they are. -/
theorem exWrapSum256_idem (x : List Nat) : exWrapSum256 (exWrapSum256 x) = exWrapSum256 x := by
  have h := exWrapSum256_length x
  generalize exWrapSum256 x = y at h
  unfold exWrapSum256
  rw [if_pos h]

/-- For a hash function that leaves its own outputs as they are, the digest is the
first hash. -/
theorem powDigest_of_idem (E : Ethash) (h : ∀ x, E.Sum256 (E.Sum256 x) = E.Sum256 x)
    (sealHash : Hash) (n : Nat) :
    powDigest E sealHash n = E.Sum256 (sealHash ++ putUint64 n) := by
  unfold powDigest
  exact Function.iterate_fixed (h _) iterCount

/-- The value `SetBytes` gives a byte string is its value as base-256 digits, the
last byte being the least significant digit. -/
theorem setBytes_eq_ofDigits (bs : List Nat) :
    setBytes bs = Nat.ofDigits 256 bs.reverse := by
  induction bs with
  | nil => rfl
  | cons b bs ih =>
    rw [setBytes_cons, List.reverse_cons, Nat.ofDigits_append, Nat.ofDigits_singleton, ih,
      List.length_reverse]
    ring

/-- Every nonce byte is below 256. -/
theorem putUint64_lt (n : Nat) : ∀ b ∈ putUint64 n, b < 256 := by
  intro b hb
  unfold putUint64 at hb
  rw [List.mem_map] at hb
  obtain ⟨i, _, rfl⟩ := hb
  exact Nat.mod_lt _ (by norm_num)

/-- The fields of a block sealed by `mine`: the nonce and the mix digest are the ones
set, and every other field of the header, and the body, are those of the block. -/
theorem WithSeal_fields (block : Block) (n : Nat) (d : Hash) :
    (block.WithSeal { block.Header with nonce := n, mixDigest := d }).header.nonce = n ∧
      (block.WithSeal { block.Header with nonce := n, mixDigest := d }).header.mixDigest = d ∧
      (block.WithSeal { block.Header with nonce := n, mixDigest := d }).header.difficulty
        = block.header.difficulty ∧
      (block.WithSeal { block.Header with nonce := n, mixDigest := d }).header.number
        = block.header.number ∧
      (block.WithSeal { block.Header with nonce := n, mixDigest := d }).header.rest
        = block.header.rest ∧
      (block.WithSeal { block.Header with nonce := n, mixDigest := d }).body = block.body :=
  ⟨rfl, rfl, rfl, rfl, rfl, rfl⟩

/-- With abort never set, if the nonce `seed + k` is the first of the sequence to meet
the target, any run of more than `k` iterations ends by handing over the block sealed
with that nonce and its digest. -/
theorem mine_run_to_solution (E : Ethash) (block : Block) (seed k fuel : Nat)
    (hD : 0 < block.Header.difficulty) (hseed : seed < 2 ^ 64)
    (hlen : ∀ x, (E.Sum256 x).length = 32)
    (hnone : ∀ j, j < k →
      ¬ setBytes (powDigest E (E.SealHash block.Header) ((seed + j) % 2 ^ 64))
        ≤ 2 ^ 256 / block.Header.difficulty)
    (hmeet : setBytes (powDigest E (E.SealHash block.Header) ((seed + k) % 2 ^ 64))
      ≤ 2 ^ 256 / block.Header.difficulty)
    (hfuel : k < fuel) :
    ∃ st, mine E block seed (fun _ => false) true fuel
      = some (some (st, .reported (block.WithSeal { block.Header with
          nonce := (seed + k) % 2 ^ 64,
          mixDigest := powDigest E (E.SealHash block.Header) ((seed + k) % 2 ^ 64) }))) := by
  obtain ⟨rest, hrest⟩ : ∃ rest, fuel = k + (rest + 1) := ⟨fuel - k - 1, by omega⟩
  subst hrest
  refine ⟨⟨if (k % 2 ^ 15 + 1) % 2 ^ 15 = 0 then 0 else k % 2 ^ 15 + 1,
    (seed + k) % 2 ^ 64,
    if (k % 2 ^ 15 + 1) % 2 ^ 15 = 0
    then List.replicate (k / 2 ^ 15) (2 ^ 15) ++ [k % 2 ^ 15 + 1]
    else List.replicate (k / 2 ^ 15) (2 ^ 15)⟩, ?_⟩
  unfold mine
  rw [mineTarget_pos block hD, Option.map_some',
    mineLoop_skip E block block.Header _ (fun _ => false) true seed hseed k
      (fun _ _ => rfl) hnone (rest + 1),
    mineLoop]
  simp only [mineStep, Bool.false_eq_true, if_false, hmeet, if_true,
    BytesToHash_powDigest E hlen]
  by_cases hflush : (k % 2 ^ 15 + 1) % 2 ^ 15 = 0
  · simp only [hflush, if_true]
  · simp only [hflush, if_false]

/-- C16: for a positive difficulty `D` and a starting nonce `seed`, if the abort signal is
never set and some 64-bit nonce meets the target, there is a first nonce in the
sequence `seed, seed + 1, ...` modulo `2 ^ 64` whose digest, read as a big-endian
unsigned integer, is at most `2 ^ 256 / D`, and `mine` ends (given more iterations than
the position of that nonce) by reporting a sealed block whose header carries that
nonce, that digest as mix digest and every other field of the block unchanged. The
digest is the hash of the seal hash followed by the eight bytes of the nonce, most
significant first, hashed again 312688 times. -/
theorem mine_reports_first_solution (E : Ethash) (block : Block) (seed : Nat)
    (hD : 0 < block.header.difficulty) (hseed : seed < 2 ^ 64)
    (hlen : ∀ x, (E.Sum256 x).length = 32)
    (hex : ∃ n, n < 2 ^ 64 ∧
      Nat.ofDigits 256 (powDigest E (E.SealHash block.header) n).reverse
        ≤ 2 ^ 256 / block.header.difficulty) :
    (∃ k, k < 2 ^ 64 ∧
      (∀ j, j < k →
        ¬ Nat.ofDigits 256 (powDigest E (E.SealHash block.header)
            ((seed + j) % 2 ^ 64)).reverse ≤ 2 ^ 256 / block.header.difficulty) ∧
      Nat.ofDigits 256 (powDigest E (E.SealHash block.header) ((seed + k) % 2 ^ 64)).reverse
        ≤ 2 ^ 256 / block.header.difficulty) ∧
    ∀ k,
      (∀ j, j < k →
        ¬ Nat.ofDigits 256 (powDigest E (E.SealHash block.header)
            ((seed + j) % 2 ^ 64)).reverse ≤ 2 ^ 256 / block.header.difficulty) →
      Nat.ofDigits 256 (powDigest E (E.SealHash block.header) ((seed + k) % 2 ^ 64)).reverse
        ≤ 2 ^ 256 / block.header.difficulty →
      (∃ nonceBytes : List Nat, nonceBytes.length = 8 ∧ (∀ b ∈ nonceBytes, b < 256) ∧
        Nat.ofDigits 256 nonceBytes.reverse = (seed + k) % 2 ^ 64 ∧
        powDigest E (E.SealHash block.header) ((seed + k) % 2 ^ 64)
          = E.Sum256^[312688] (E.Sum256 (E.SealHash block.header ++ nonceBytes))) ∧
      ∀ fuel, k < fuel →
        ∃ st sealed, mine E block seed (fun _ => false) true fuel
            = some (some (st, .reported sealed)) ∧
          sealed.header.nonce = (seed + k) % 2 ^ 64 ∧
          sealed.header.mixDigest
            = powDigest E (E.SealHash block.header) ((seed + k) % 2 ^ 64) ∧
          sealed.header.difficulty = block.header.difficulty ∧
          sealed.header.number = block.header.number ∧
          sealed.header.rest = block.header.rest ∧
          sealed.body = block.body := by
  have hval : ∀ n, Nat.ofDigits 256 (powDigest E (E.SealHash block.header) n).reverse
      = setBytes (powDigest E (E.SealHash block.Header) n) :=
    fun n => (setBytes_eq_ofDigits _).symm
  refine ⟨?_, ?_⟩
  · obtain ⟨n, hn, hmeet⟩ := hex
    have hP : ∃ k, Nat.ofDigits 256 (powDigest E (E.SealHash block.header)
        ((seed + k) % 2 ^ 64)).reverse ≤ 2 ^ 256 / block.header.difficulty := by
      refine ⟨(n + 2 ^ 64 - seed) % 2 ^ 64, ?_⟩
      have : (seed + (n + 2 ^ 64 - seed) % 2 ^ 64) % 2 ^ 64 = n := by omega
      rw [this]
      exact hmeet
    have hk0 : Nat.find hP ≤ (n + 2 ^ 64 - seed) % 2 ^ 64 := by
      apply Nat.find_min'
      have : (seed + (n + 2 ^ 64 - seed) % 2 ^ 64) % 2 ^ 64 = n := by omega
      rw [this]
      exact hmeet
    refine ⟨Nat.find hP, ?_, fun j hj => Nat.find_min hP hj, Nat.find_spec hP⟩
    have : (n + 2 ^ 64 - seed) % 2 ^ 64 < 2 ^ 64 := Nat.mod_lt _ (by norm_num)
    omega
  · intro k hnone hmeet
    refine ⟨⟨putUint64 ((seed + k) % 2 ^ 64), (setBytes_putUint64 _).1, putUint64_lt _, ?_,
      rfl⟩, ?_⟩
    · rw [← setBytes_eq_ofDigits, (setBytes_putUint64 _).2]
      exact Nat.mod_mod _ _
    · intro fuel hfuel
      obtain ⟨st, hst⟩ := mine_run_to_solution E block seed k fuel hD hseed hlen
        (fun j hj => by rw [← hval]; exact hnone j hj) (by rw [← hval]; exact hmeet) hfuel
      exact ⟨st, _, hst, WithSeal_fields block _ _⟩

/-- C16, at an instance: difficulty 4, the seed `2 ^ 64 - 1`, and digests that meet the
target only for nonces whose last byte is 1: the nonces `2 ^ 64 - 1` and 0 fail, the
sequence wraps, and the block sealed with the nonce 1 and the all-zero digest is
reported. -/
theorem mine_reports_first_solution_witness :
    ∃ st sealed, mine exWrapEngine (exBlock 100) (2 ^ 64 - 1) (fun _ => false) true 5
        = some (some (st, .reported sealed)) ∧
      sealed.header.nonce = 1 ∧
      sealed.header.mixDigest = List.replicate 32 0 ∧
      sealed.header.difficulty = 4 ∧ sealed.header.number = 100 ∧
      sealed.body = (exBlock 100).body := by
  have hd : ∀ n, powDigest exWrapEngine (exWrapEngine.SealHash (exBlock 100).header) n
      = exWrapSum256 ([100] ++ putUint64 n) :=
    fun n => powDigest_of_idem exWrapEngine exWrapSum256_idem _ n
  have hv : ∀ n, Nat.ofDigits 256
      (powDigest exWrapEngine (exWrapEngine.SealHash (exBlock 100).header) n).reverse
      = setBytes (exWrapSum256 ([100] ++ putUint64 n)) := by
    intro n
    rw [hd, setBytes_eq_ofDigits]
  have h := (mine_reports_first_solution exWrapEngine (exBlock 100) (2 ^ 64 - 1)
    (by decide) (by decide) exWrapSum256_length
    ⟨1, by decide, by rw [hv]; decide⟩).2 2
    (by
      intro j hj
      rw [hv]
      interval_cases j <;> decide)
    (by rw [hv]; decide)
  obtain ⟨st, sealed, hrun, hnonce, hmix, hdiff, hnum, _, hbody⟩ := h.2 5 (by decide)
  refine ⟨st, sealed, hrun, ?_, ?_, hdiff, hnum, hbody⟩
  · rw [hnonce]
    decide
  · rw [hmix, hd]
    decide

/-! ## Seal: the local workers started -/

/-- C12, refuted as stated: with the thread count 0 on a machine of 4 CPUs, outside fake and
shared modes, `Seal` starts 4 local workers, not 0. -/
theorem Seal_zero_threads_counterexample :
    (Seal ⟨false, false, 0, true⟩ 4 (some (fun i => i)) none (exBlock 100)).workers.length = 4 ∧
      (Seal ⟨false, false, 0, true⟩ 4 (some (fun i => i)) none (exBlock 100)).workers.length
        ≠ 0 := by
  decide

/-- C12, amended: outside fake and shared modes and with a random source at hand, `Seal`
starts a search with `runtime.NumCPU()` local workers when the thread count `t` is 0,
with none when `t < 0`, and with `t` workers when `t > 0`: a negative thread count
disables the local search. -/
theorem Seal_worker_count (cfg : sealConfig) (numCPU : Int) (rand fresh : Option (Nat → Nat))
    (draws : Nat → Nat) (block : Block)
    (hfake : cfg.fake = false) (hshared : cfg.shared = false)
    (hrand : rand = some draws ∨ (rand = none ∧ fresh = some draws)) :
    (∃ workers, Seal cfg numCPU rand fresh block = .searching cfg.remote workers) ∧
      (Seal cfg numCPU rand fresh block).workers.length
        = (if cfg.threads = 0 then numCPU.toNat
          else if cfg.threads < 0 then 0 else cfg.threads.toNat) ∧
      (cfg.threads < 0 → (Seal cfg numCPU rand fresh block).workers = []) := by
  have hsrc : sealRand rand fresh = some draws := by
    rcases hrand with h | ⟨h1, h2⟩
    · rw [h]; rfl
    · rw [h1, h2]; rfl
  have hseal : Seal cfg numCPU rand fresh block = .searching cfg.remote
      ((List.range (if (if cfg.threads = 0 then numCPU else cfg.threads) < 0 then 0
        else (if cfg.threads = 0 then numCPU else cfg.threads)).toNat).map
        (fun i => (i, draws i % 2 ^ 63))) := by
    unfold Seal
    simp only [hfake, hshared, Bool.false_eq_true, if_false, hsrc]
  have hlen : (Seal cfg numCPU rand fresh block).workers.length
      = (if cfg.threads = 0 then numCPU.toNat
        else if cfg.threads < 0 then 0 else cfg.threads.toNat) := by
    rw [hseal]
    simp only [sealStart.workers, List.length_map, List.length_range]
    by_cases h0 : cfg.threads = 0
    · simp only [h0, if_true]
      by_cases hc : numCPU < 0
      · simp only [hc, if_true]
        omega
      · simp only [hc, if_false]
    · simp only [h0, if_false]
      by_cases hneg : cfg.threads < 0
      · simp only [hneg, if_true]
        rfl
      · simp only [hneg, if_false]
  refine ⟨⟨_, hseal⟩, hlen, ?_⟩
  intro hneg
  have h0 : ¬ cfg.threads = 0 := by omega
  exact List.eq_nil_of_length_eq_zero (by rw [hlen, if_neg h0, if_pos hneg])

/-- C12 amended, at an instance: the thread count 3 on a machine of 4 CPUs. -/
theorem Seal_worker_count_witness :
    (∃ workers, Seal ⟨false, false, 3, true⟩ 4 none (some (fun i => i)) (exBlock 100)
        = .searching true workers) ∧
      (Seal ⟨false, false, 3, true⟩ 4 none (some (fun i => i)) (exBlock 100)).workers.length
        = (if (3 : Int) = 0 then (4 : Int).toNat
          else if (3 : Int) < 0 then 0 else (3 : Int).toNat) :=
  have h := Seal_worker_count ⟨false, false, 3, true⟩ 4 none (some (fun i => i)) (fun i => i)
    (exBlock 100) rfl rfl (Or.inr ⟨rfl, rfl⟩)
  ⟨h.1, h.2.1⟩

/-- C15, refuted as stated: with a random source whose draws repeat the value 5, the two
workers started by `Seal` both begin at the nonce 5. -/
theorem Seal_nonces_repeat_counterexample :
    (Seal ⟨false, false, 2, false⟩ 4 (some (fun _ => 5)) none (exBlock 100)).workers
        = [(0, 5), (1, 5)] ∧
      ¬ ((Seal ⟨false, false, 2, false⟩ 4 (some (fun _ => 5)) none (exBlock 100)).workers.map
        Prod.snd).Nodup := by
  decide

/-- C15, amended: the workers started by `Seal` have the ids `0, 1, ..` in order, and worker
`i` starts at the nonce given by draw `i` of the random source of the session, a
value below `2 ^ 63`; no offset by the worker index is applied, and the starting
nonces are pairwise distinct exactly when those draws are. -/
theorem Seal_worker_nonces (cfg : sealConfig) (numCPU : Int) (rand fresh : Option (Nat → Nat))
    (draws : Nat → Nat) (block : Block)
    (hfake : cfg.fake = false) (hshared : cfg.shared = false)
    (hrand : rand = some draws ∨ (rand = none ∧ fresh = some draws)) :
    ∃ n, (Seal cfg numCPU rand fresh block).workers
        = (List.range n).map (fun i => (i, draws i % 2 ^ 63)) ∧
      (∀ w ∈ (Seal cfg numCPU rand fresh block).workers, w.2 < 2 ^ 63) ∧
      (((Seal cfg numCPU rand fresh block).workers.map Prod.snd).Nodup ↔
        ∀ i j, i < j → j < n → draws i % 2 ^ 63 ≠ draws j % 2 ^ 63) := by
  have hsrc : sealRand rand fresh = some draws := by
    rcases hrand with h | ⟨h1, h2⟩
    · rw [h]; rfl
    · rw [h1, h2]; rfl
  refine ⟨(if (if cfg.threads = 0 then numCPU else cfg.threads) < 0 then 0
      else (if cfg.threads = 0 then numCPU else cfg.threads)).toNat, ?_, ?_, ?_⟩
  · unfold Seal
    simp only [hfake, hshared, Bool.false_eq_true, if_false, hsrc, sealStart.workers]
  · unfold Seal
    simp only [hfake, hshared, Bool.false_eq_true, if_false, hsrc, sealStart.workers]
    intro w hw
    rw [List.mem_map] at hw
    obtain ⟨i, _, rfl⟩ := hw
    exact Nat.mod_lt _ (by norm_num)
  · unfold Seal
    simp only [hfake, hshared, Bool.false_eq_true, if_false, hsrc, sealStart.workers,
      List.map_map]
    generalize (if (if cfg.threads = 0 then numCPU else cfg.threads) < 0 then 0
      else (if cfg.threads = 0 then numCPU else cfg.threads)).toNat = n
    have hcomp : (Prod.snd ∘ fun i => (i, draws i % 2 ^ 63)) = fun i => draws i % 2 ^ 63 := rfl
    rw [hcomp, List.nodup_map_iff_inj_on (List.nodup_range n)]
    constructor
    · intro h i j hij hj heq
      have := h i (List.mem_range.mpr (by omega)) j (List.mem_range.mpr hj) heq
      omega
    · intro h i hi j hj heq
      rw [List.mem_range] at hi hj
      by_contra hne
      rcases Nat.lt_or_gt_of_ne hne with hlt | hgt
      · exact h i j hlt hj heq
      · exact h j i hgt hi heq.symm

/-- C15 amended, at an instance: three workers on the draws `10, 11, 12`. -/
theorem Seal_worker_nonces_witness :
    ∃ n, (Seal ⟨false, false, 3, false⟩ 4 (some (fun i => 10 + i)) none (exBlock 100)).workers
        = (List.range n).map (fun i => (i, (10 + i) % 2 ^ 63)) ∧
      (∀ w ∈ (Seal ⟨false, false, 3, false⟩ 4 (some (fun i => 10 + i)) none
        (exBlock 100)).workers, w.2 < 2 ^ 63) ∧
      (((Seal ⟨false, false, 3, false⟩ 4 (some (fun i => 10 + i)) none
          (exBlock 100)).workers.map Prod.snd).Nodup ↔
        ∀ i j, i < j → j < n → (10 + i) % 2 ^ 63 ≠ (10 + j) % 2 ^ 63) :=
  Seal_worker_nonces ⟨false, false, 3, false⟩ 4 (some (fun i => 10 + i)) none
    (fun i => 10 + i) (exBlock 100) rfl rfl (Or.inl rfl)

/-! ## The current block keeps its work item -/

/-- One surviving iteration of the loop keeps the current block bound under its seal
hash in `works`, with the hex of that hash first in the work package, provided a
pushed block has a number below `2 ^ 64 - 7`. -/
theorem loop_keeps_current_work (E : Ethash) (now : Int) (s : remoteSealer) (req : Request)
    (r : stepResult) (hstep : loop E now s req = some r)
    (hpush : ∀ b sink, req = .work b sink → b.header.number + 7 < 2 ^ 64)
    (hinv : ∀ cur, s.currentBlock = some cur →
      s.works.lookup (E.SealHash cur.Header) = some cur ∧
      s.currentWork.w0 = Hex (E.SealHash cur.Header) ∧ cur.header.number + 7 < 2 ^ 64) :
    ∀ cur, r.state.currentBlock = some cur →
      r.state.works.lookup (E.SealHash cur.Header) = some cur ∧
      r.state.currentWork.w0 = Hex (E.SealHash cur.Header) ∧
      cur.header.number + 7 < 2 ^ 64 := by
  cases req with
  | work block results =>
    simp only [loop] at hstep
    cases hdiv : bigDiv two256 block.Difficulty with
    | none => simp [makeWork, hdiv] at hstep
    | some target =>
      simp only [makeWork, hdiv, Option.map_some', Option.some.injEq] at hstep
      subst hstep
      intro cur hcur
      simp only [Option.some.injEq] at hcur
      subst hcur
      exact ⟨Finmap.lookup_insert _, rfl, hpush block results rfl⟩
  | fetchWork =>
    simp only [loop] at hstep
    cases hc : s.currentBlock <;> rw [hc] at hstep <;> cases hstep <;> exact hinv
  | submitWork nonce mixDigest hash minerAddress sinkReady =>
    simp only [loop] at hstep
    cases hsub : submitWork E s sinkReady nonce mixDigest hash minerAddress with
    | none => simp [hsub] at hstep
    | some out =>
      simp only [hsub, Option.map_some', Option.some.injEq] at hstep
      subst hstep
      by_cases hret : out.ret = true
      · simp only [hret, if_true]; exact hinv
      · simp only [hret]; exact hinv
  | submitRate id rate =>
    simp only [loop, Option.some.injEq] at hstep
    subst hstep
    exact hinv
  | fetchRate =>
    simp only [loop, Option.some.injEq] at hstep
    subst hstep
    exact hinv
  | tick =>
    simp only [loop, Option.some.injEq] at hstep
    subst hstep
    intro cur hcur
    have h1 : (tick s now).currentBlock = s.currentBlock := by
      unfold tick; cases s.currentBlock <;> rfl
    have h2 : (tick s now).currentWork = s.currentWork := by
      unfold tick; cases s.currentBlock <;> rfl
    rw [h1] at hcur
    obtain ⟨hl, hw, hn⟩ := hinv cur hcur
    have hworks : (tick s now).works = deleteWhere
        (fun _ b => decide ((b.NumberU64 + staleThreshold) % 2 ^ 64 ≤ cur.NumberU64))
        s.works := by
      unfold tick
      rw [hcur]
    refine ⟨?_, by rw [h2]; exact hw, hn⟩
    rw [hworks]
    apply (lookup_deleteWhere _ _ _ _).mpr
    refine ⟨hl, ?_⟩
    simp only [Block.NumberU64, staleThreshold, decide_eq_false_iff_not]
    omega

/-- A surviving run from a state that binds its current block under its seal hash ends
in such a state, provided the pushed blocks have numbers below `2 ^ 64 - 7`. -/
theorem run_keeps_current_work (E : Ethash) (reqs : List (Int × Request)) (s : remoteSealer)
    (s1 : remoteSealer) (replies : List Response)
    (hrun : run E s reqs = some (s1, replies))
    (hpush : ∀ t b sink, (t, Request.work b sink) ∈ reqs → b.header.number + 7 < 2 ^ 64)
    (hinv : ∀ cur, s.currentBlock = some cur →
      s.works.lookup (E.SealHash cur.Header) = some cur ∧
      s.currentWork.w0 = Hex (E.SealHash cur.Header) ∧ cur.header.number + 7 < 2 ^ 64) :
    ∀ cur, s1.currentBlock = some cur →
      s1.works.lookup (E.SealHash cur.Header) = some cur ∧
      s1.currentWork.w0 = Hex (E.SealHash cur.Header) ∧
      cur.header.number + 7 < 2 ^ 64 := by
  induction reqs generalizing s replies with
  | nil =>
    simp only [run, Option.some.injEq, Prod.mk.injEq] at hrun
    rw [← hrun.1]
    exact hinv
  | cons head rest ih =>
    obtain ⟨now, req⟩ := head
    simp only [run] at hrun
    cases hstep : loop E now s req with
    | none => simp [hstep] at hrun
    | some r =>
      rw [hstep] at hrun
      cases hrest : run E r.state rest with
      | none => simp [hrest] at hrun
      | some p =>
        obtain ⟨s2, replies2⟩ := p
        simp only [hrest, Option.some.injEq, Prod.mk.injEq] at hrun
        rw [hrun.1] at hrest
        refine ih r.state replies2 hrest
          (fun t b sink hmem => hpush t b sink (List.mem_cons_of_mem _ hmem)) ?_
        exact loop_keeps_current_work E now s req r hstep
          (fun b sink hreq => hpush now b sink (by rw [hreq]; exact List.mem_cons_self _ _))
          hinv

/-- C18: in every state the loop reaches from the initial state by handling requests
(pushed blocks numbered below `2 ^ 64 - 7`), a current block is bound to itself under
its seal hash in `works`, and the first field of the current work is the hex of that
hash; a cleanup tick keeps that work item, and a submission against the seal hash of
the work served by FetchWork is answered, and not for lack of pending work. -/
theorem current_block_has_work (E : Ethash) (noverify : Bool) (reqs : List (Int × Request))
    (s : remoteSealer) (replies : List Response) (cur : Block)
    (hrun : run E (startRemoteSealer noverify) reqs = some (s, replies))
    (hpush : ∀ t b sink, (t, Request.work b sink) ∈ reqs → b.header.number + 7 < 2 ^ 64)
    (hcur : s.currentBlock = some cur) :
    s.works.lookup (E.SealHash cur.Header) = some cur ∧
      s.currentWork.w0 = Hex (E.SealHash cur.Header) ∧
      (∀ now, (tick s now).works.lookup (E.SealHash cur.Header) = some cur) ∧
      (∀ now, loop E now s .fetchWork = some ⟨s, .workRes s.currentWork, none⟩) ∧
      (∀ (sinkReady : Bool) (nonce : Nat) (mixDigest : Hash) (minerAddress : Address),
        ∃ out, submitWork E s sinkReady nonce mixDigest (E.SealHash cur.Header) minerAddress
            = some out ∧ out.log ≠ .nonePending) := by
  have hinv := run_keeps_current_work E reqs (startRemoteSealer noverify) s replies hrun hpush
    (by intro c hc; cases hc)
  obtain ⟨hl, hw, hn⟩ := hinv cur hcur
  refine ⟨hl, hw, ?_, ?_, ?_⟩
  · intro now
    have htick := loop_keeps_current_work E now s .tick ⟨tick s now, .done, none⟩ rfl
      (by intro b sink h; cases h) hinv cur
      (by show (tick s now).currentBlock = some cur
          unfold tick; rw [hcur])
    exact htick.1
  · intro now
    simp only [loop, hcur]
  · intro sinkReady nonce mixDigest minerAddress
    unfold submitWork
    rw [hl, hcur]
    dsimp only
    by_cases hv : (!s.noverify && !E.verifySeal
        { cur.Header with nonce := nonce, mixDigest := mixDigest }) = true
    · rw [if_pos hv]
      exact ⟨_, rfl, fun h => by cases h⟩
    · rw [if_neg hv]
      by_cases hs : (Block.NumberU64 (cur.WithSeal
          { cur.Header with nonce := nonce, mixDigest := mixDigest }) + staleThreshold)
          % 2 ^ 64 > cur.NumberU64
      · rw [if_pos hs]
        by_cases hr : (sinkReady && s.results.isSome) = true
        · rw [if_pos hr]
          exact ⟨_, rfl, fun h => by cases h⟩
        · rw [if_neg hr]
          exact ⟨_, rfl, fun h => by cases h⟩
      · rw [if_neg hs]
        exact ⟨_, rfl, fun h => by cases h⟩

/-- C18, at an instance: after the push of block 100, a tick and a fetch of work. -/
theorem current_block_has_work_witness :
    run exEngine (startRemoteSealer false) exRun
        = some (exAfterRun, [.done, .done, .workRes exAfterRun.currentWork]) ∧
      exAfterRun.works.lookup (exEngine.SealHash (exBlock 100).Header) = some (exBlock 100) ∧
      exAfterRun.currentWork.w0 = Hex (exEngine.SealHash (exBlock 100).Header) :=
  have h := current_block_has_work exEngine false exRun exAfterRun
    [.done, .done, .workRes exAfterRun.currentWork] (exBlock 100) (by decide)
    (by
      intro t b sink hmem
      simp only [exRun, List.mem_cons, Prod.mk.injEq, Request.work.injEq, reduceCtorEq,
        and_false, List.mem_nil_iff, or_false] at hmem
      obtain ⟨_, hb, _⟩ := hmem
      subst hb
      decide)
    rfl
  ⟨by decide, h.1, h.2.1⟩

/-! ## Epochs -/

/-- The initialisation of the table `epochs` succeeds and gives the values written out
in `epochValues`. -/
theorem epochs_eq_values : epochs = some epochValues := by
  decide

/-- C19, violated by the code: the table is built, and its entry "Integrity" has a total
reward of 7 coins while its miner, staking and development rewards sum to 6.95 coins;
every other entry has a total equal to the sum of its three parts. -/
theorem epochs_integrity_total_mismatch :
    epochs = some epochValues ∧
      (∃ e ∈ epochValues, e.Name = "Integrity" ∧ e.StartBlock = 251 ∧
        e.TotalReward = 7000000000000000000 ∧
        e.MinerReward + e.StakingReward + e.DevFund = 6950000000000000000 ∧
        e.TotalReward ≠ e.MinerReward + e.StakingReward + e.DevFund) ∧
      (∀ e ∈ epochValues, e.Name ≠ "Integrity" →
        e.TotalReward = e.MinerReward + e.StakingReward + e.DevFund) := by
  decide

/-- On a table sorted by strictly increasing start block, the epoch found for a block
number is an entry of the table; from the first start block on it is the entry of
greatest start block at most the block number, and below it is the first entry. -/
theorem currentEpochIn_spec (first : Epoch) (rest : List Epoch)
    (hsorted : (first :: rest).Pairwise (fun a c => a.StartBlock < c.StartBlock))
    (b : Nat) :
    ∃ e, currentEpochIn (first :: rest) b = some e ∧ e ∈ first :: rest ∧
      (first.StartBlock ≤ b → e.StartBlock ≤ b ∧
        ∀ e2 ∈ first :: rest, e2.StartBlock ≤ b → e2.StartBlock ≤ e.StartBlock) ∧
      (b < first.StartBlock → e = first) := by
  unfold currentEpochIn
  cases hfind : (first :: rest).reverse.find? (fun e => decide (b ≥ e.StartBlock)) with
  | none =>
    refine ⟨first, rfl, List.mem_cons_self _ _, ?_, fun _ => rfl⟩
    intro hb
    rw [List.find?_eq_none] at hfind
    have := hfind first (List.mem_reverse.mpr (List.mem_cons_self _ _))
    simp only [ge_iff_le, decide_eq_true_eq] at this
    exact absurd hb this
  | some e =>
    have hp : e.StartBlock ≤ b := by
      have := List.find?_some hfind
      simpa using this
    have hmem : e ∈ first :: rest :=
      List.mem_reverse.mp (List.mem_of_find?_eq_some hfind)
    refine ⟨e, rfl, hmem, ?_, ?_⟩
    · intro _
      refine ⟨hp, ?_⟩
      obtain ⟨_, as, bs, hsplit, hnot⟩ := List.find?_eq_some.mp hfind
      have htable : first :: rest = bs.reverse ++ e :: as.reverse := by
        have := congrArg List.reverse hsplit
        simpa using this
      rw [htable] at hsorted ⊢
      rw [List.pairwise_append] at hsorted
      intro e2 he2 hb2
      rcases List.mem_append.mp he2 with h | h
      · exact Nat.le_of_lt (hsorted.2.2 e2 h e (List.mem_cons_self _ _))
      · rcases List.mem_cons.mp h with h | h
        · rw [h]
        · have := hnot e2 (List.mem_reverse.mp h)
          simp only [ge_iff_le, Bool.not_eq_true', decide_eq_false_iff_not] at this
          exact absurd hb2 this
    · intro hlt
      rcases List.mem_cons.mp hmem with h | h
      · exact h
      · have := (List.pairwise_cons.mp hsorted).1 e h
        omega

/-- C20: `GetCurrentEpoch` returns an entry of the table for every block number; for a
block number `b ≥ 1` it is the entry of greatest start block at most `b` (so `b` is
below the start block of every later entry), for `b = 0` it is the first entry, and the
start block of the result grows with the block number. -/
theorem GetCurrentEpoch_greatest_start (b : Nat) :
    ∃ table first e, epochs = some table ∧ table.head? = some first ∧
      GetCurrentEpoch b = some e ∧ e ∈ table ∧
      (1 ≤ b → e.StartBlock ≤ b ∧
        (∀ e2 ∈ table, e2.StartBlock ≤ b → e2.StartBlock ≤ e.StartBlock) ∧
        (∀ e2 ∈ table, e.StartBlock < e2.StartBlock → b < e2.StartBlock)) ∧
      (b = 0 → e = first) ∧
      (∀ b2, b ≤ b2 → ∃ e2, GetCurrentEpoch b2 = some e2 ∧ e.StartBlock ≤ e2.StartBlock) := by
  have hsorted : epochValues.Pairwise (fun a c => a.StartBlock < c.StartBlock) := by
    decide
  obtain ⟨first, rest, htable⟩ : ∃ first rest, epochValues = first :: rest := ⟨_, _, rfl⟩
  have hfirst : first.StartBlock = 1 := by
    have : epochValues.head? = some first := by rw [htable]; rfl
    have h2 : (epochValues.head?.map (·.StartBlock)) = some 1 := by decide
    rw [this] at h2
    simpa using h2
  rw [htable] at hsorted
  have hget : ∀ n, GetCurrentEpoch n = currentEpochIn (first :: rest) n := by
    intro n
    unfold GetCurrentEpoch
    rw [epochs_eq_values, htable]
    rfl
  obtain ⟨e, he, hmem, hge, hlt⟩ := currentEpochIn_spec first rest hsorted b
  refine ⟨first :: rest, first, e, by rw [epochs_eq_values, htable], rfl,
    by rw [hget, he], hmem, ?_, ?_, ?_⟩
  · intro hb
    obtain ⟨h1, h2⟩ := hge (by omega)
    refine ⟨h1, h2, ?_⟩
    intro e2 he2 hlt2
    by_contra hnot
    have := h2 e2 he2 (by omega)
    omega
  · intro hb
    exact hlt (by omega)
  · intro b2 hb2
    obtain ⟨e2, he2, hmem2, hge2, hlt2⟩ := currentEpochIn_spec first rest hsorted b2
    refine ⟨e2, by rw [hget, he2], ?_⟩
    by_cases hb : first.StartBlock ≤ b
    · exact (hge2 (by omega)).2 e hmem (by have := (hge hb).1; omega)
    · have hef : e = first := hlt (by omega)
      rw [hef]
      rcases List.mem_cons.mp hmem2 with h | h
      · rw [h]
      · exact Nat.le_of_lt ((List.pairwise_cons.mp hsorted).1 e2 h)

/-! ## coinsToWei -/

/-- C21, violated by the code: on a fractional part of 19 digits `coinsToWei` panics (the
padding `strings.Repeat("0", 18-len(fracPart))` gets a negative count before the
truncation to 18 digits is reached) instead of returning the amount truncated to 18
digits; with 18 fractional digits, or fewer, it returns the amount in Wei. -/
theorem coinsToWei_long_fraction_panics :
    coinsToWei "1.1234567890123456789" = .panic ∧
      coinsToWei "1.1234567890123456789" ≠ .wei 1123456789012345678 ∧
      coinsToWei "1.123456789012345678" = .wei 1123456789012345678 ∧
      coinsToWei "1.5" = .wei 1500000000000000000 ∧
      coinsToWei "7" = .wei 7000000000000000000 := by
  decide

/-- A string without a dot is its own single part. -/
theorem splitDot_of_no_dot (l : List Char) (h : ∀ c ∈ l, c ≠ '.') : splitDot l = [l] := by
  induction l with
  | nil => rfl
  | cons c cs ih =>
    have hc : c ≠ '.' := h c (List.mem_cons_self _ _)
    have ih2 := ih (fun x hx => h x (List.mem_cons_of_mem _ hx))
    simp only [splitDot, hc, if_false, ih2]

/-- A string splits at its first dot. -/
theorem splitDot_append_dot (l r : List Char) (h : ∀ c ∈ l, c ≠ '.') :
    splitDot (l ++ '.' :: r) = l :: splitDot r := by
  induction l with
  | nil => simp [splitDot]
  | cons c cs ih =>
    have hc : c ≠ '.' := h c (List.mem_cons_self _ _)
    have ih2 := ih (fun x hx => h x (List.mem_cons_of_mem _ hx))
    have hstep : ∀ x, splitDot (c :: x) = (match splitDot x with
        | [] => [[c]]
        | p :: ps => (c :: p) :: ps) := by
      intro x
      simp only [splitDot, hc, if_false]
    show splitDot (c :: (cs ++ '.' :: r)) = (c :: cs) :: splitDot r
    rw [hstep, ih2]

/-- A decimal digit is not a dot. -/
theorem digit_ne_dot (c : Char) (h : '0' ≤ c ∧ c ≤ '9') : c ≠ '.' := by
  rintro rfl
  exact absurd h.1 (by decide)

/-- Reading decimal digits from an accumulator succeeds with the plain fold. -/
theorem parseDigits_foldl (cs : List Char) (h : ∀ c ∈ cs, '0' ≤ c ∧ c ≤ '9') (a : Nat) :
    cs.foldl (fun acc c => acc.bind (fun a =>
        if '0' ≤ c ∧ c ≤ '9' then some (a * 10 + (c.toNat - '0'.toNat)) else none)) (some a)
      = some (cs.foldl (fun a c => a * 10 + (c.toNat - '0'.toNat)) a) := by
  induction cs generalizing a with
  | nil => rfl
  | cons c cs ih =>
    have hc := h c (List.mem_cons_self _ _)
    simp only [List.foldl_cons, Option.some_bind, hc, and_self, if_true]
    exact ih (fun x hx => h x (List.mem_cons_of_mem _ hx)) _

/-- A non-empty string of decimal digits is read by `SetString` as its value. -/
theorem parseBig10_digits (cs : List Char) (h : ∀ c ∈ cs, '0' ≤ c ∧ c ≤ '9')
    (hne : cs ≠ []) : parseBig10 cs = some (decVal cs : Int) := by
  have hpd : parseDigits cs = some (decVal cs) := by
    unfold parseDigits decVal
    rw [if_neg hne]
    exact parseDigits_foldl cs h 0
  cases cs with
  | nil => exact absurd rfl hne
  | cons c rest =>
    have hc := h c (List.mem_cons_self _ _)
    have hplus : c ≠ '+' := by
      rintro rfl
      exact absurd hc.1 (by decide)
    have hminus : c ≠ '-' := by
      rintro rfl
      exact absurd hc.1 (by decide)
    unfold parseBig10
    split
    · rename_i heq
      exact absurd (List.cons.inj heq).1 hplus
    · rename_i heq
      exact absurd (List.cons.inj heq).1 hminus
    · rw [hpd]
      rfl

/-- The value of digits from an accumulator. -/
theorem decVal_foldl (cs : List Char) (a : Nat) :
    cs.foldl (fun a c => a * 10 + (c.toNat - '0'.toNat)) a
      = a * 10 ^ cs.length + decVal cs := by
  unfold decVal
  induction cs generalizing a with
  | nil => simp
  | cons c cs ih =>
    simp only [List.foldl_cons, List.length_cons]
    rw [ih (a * 10 + (c.toNat - '0'.toNat)), ih (0 * 10 + (c.toNat - '0'.toNat))]
    ring

/-- The value of two digit strings put together. -/
theorem decVal_append (l r : List Char) :
    decVal (l ++ r) = decVal l * 10 ^ r.length + decVal r := by
  have h : decVal (l ++ r)
      = r.foldl (fun a c => a * 10 + (c.toNat - '0'.toNat)) (decVal l) := by
    unfold decVal
    rw [List.foldl_append]
  rw [h, decVal_foldl]

/-- Zeros have the value zero. -/
theorem decVal_zeros (k : Nat) : decVal (List.replicate k '0') = 0 := by
  induction k with
  | zero => rfl
  | succ k ih =>
    rw [List.replicate_succ]
    have h : decVal ('0' :: List.replicate k '0')
        = (List.replicate k '0').foldl (fun a c => a * 10 + (c.toNat - '0'.toNat)) 0 := by
      unfold decVal
      rfl
    rw [h, decVal_foldl, ih]
    simp

/-- With a fractional part of more than 18 digits `coinsToWei` panics, whatever the
integer part. -/
theorem coinsToWei_long_fraction (ip fp : List Char)
    (hip : ∀ c ∈ ip, '0' ≤ c ∧ c ≤ '9') (hfp : ∀ c ∈ fp, '0' ≤ c ∧ c ≤ '9')
    (hlen : 18 < fp.length) :
    coinsToWei (String.mk (ip ++ '.' :: fp)) = .panic := by
  have hsplit : splitDot (ip ++ '.' :: fp) = [ip, fp] := by
    rw [splitDot_append_dot ip fp (fun c hc => digit_ne_dot c (hip c hc)),
      splitDot_of_no_dot fp (fun c hc => digit_ne_dot c (hfp c hc))]
  unfold coinsToWei
  simp only [hsplit, hlen, if_true]

/-- With a fractional part of at most 18 digits `coinsToWei` returns the integer part
times `10 ^ 18` plus the fractional digits right-padded with zeros to 18 digits, which
is the floor of the value times `10 ^ 18`. -/
theorem coinsToWei_short_fraction (ip fp : List Char)
    (hip : ∀ c ∈ ip, '0' ≤ c ∧ c ≤ '9') (hfp : ∀ c ∈ fp, '0' ≤ c ∧ c ≤ '9')
    (hlen : fp.length ≤ 18) :
    coinsToWei (String.mk (ip ++ '.' :: fp))
        = .wei ((decVal ip * 10 ^ 18 + decVal fp * 10 ^ (18 - fp.length) : Nat) : Int) ∧
      decVal ip * 10 ^ 18 + decVal fp * 10 ^ (18 - fp.length)
        = (decVal ip * 10 ^ fp.length + decVal fp) * 10 ^ 18 / 10 ^ fp.length := by
  have hsplit : splitDot (ip ++ '.' :: fp) = [ip, fp] := by
    rw [splitDot_append_dot ip fp (fun c hc => digit_ne_dot c (hip c hc)),
      splitDot_of_no_dot fp (fun c hc => digit_ne_dot c (hfp c hc))]
  have hpadlen : (fp ++ List.replicate (18 - fp.length) '0').length = 18 := by
    rw [List.length_append, List.length_replicate]
    omega
  have hdigits : ∀ c ∈ ip ++ (fp ++ List.replicate (18 - fp.length) '0'),
      '0' ≤ c ∧ c ≤ '9' := by
    intro c hc
    rcases List.mem_append.mp hc with h | h
    · exact hip c h
    · rcases List.mem_append.mp h with h | h
      · exact hfp c h
      · rw [List.mem_replicate] at h
        rw [h.2]
        decide
  have hne : ip ++ (fp ++ List.replicate (18 - fp.length) '0') ≠ [] := by
    intro h
    have := congrArg List.length h
    rw [List.length_append, hpadlen] at this
    simp at this
  have hval : decVal (ip ++ (fp ++ List.replicate (18 - fp.length) '0'))
      = decVal ip * 10 ^ 18 + decVal fp * 10 ^ (18 - fp.length) := by
    rw [decVal_append, hpadlen, decVal_append, decVal_zeros, List.length_replicate]
    simp
  have hpow : (10 : Nat) ^ 18 = 10 ^ fp.length * 10 ^ (18 - fp.length) := by
    rw [← pow_add]
    congr 1
    omega
  refine ⟨?_, ?_⟩
  · unfold coinsToWei
    have hnot : ¬ 18 < fp.length := by omega
    simp only [hsplit, List.headD_cons, hnot, if_false, hpadlen, gt_iff_lt, lt_self_iff_false,
      parseBig10_digits _ hdigits hne, hval]
  · rw [hpow]
    have hpos : 0 < 10 ^ fp.length := Nat.pow_pos (by norm_num)
    have hrw : (decVal ip * 10 ^ fp.length + decVal fp)
          * (10 ^ fp.length * 10 ^ (18 - fp.length))
        = 10 ^ fp.length
          * ((decVal ip * 10 ^ fp.length + decVal fp) * 10 ^ (18 - fp.length)) := by ring
    rw [hrw, Nat.mul_div_cancel_left _ hpos]
    ring

/-- Without a fractional part `coinsToWei` returns the integer times `10 ^ 18`. -/
theorem coinsToWei_no_fraction (ip : List Char) (hip : ∀ c ∈ ip, '0' ≤ c ∧ c ≤ '9') :
    coinsToWei (String.mk ip) = .wei ((decVal ip * 10 ^ 18 : Nat) : Int) := by
  have hsplit : splitDot ip = [ip] :=
    splitDot_of_no_dot ip (fun c hc => digit_ne_dot c (hip c hc))
  have hdigits : ∀ c ∈ ip ++ List.replicate 18 '0', '0' ≤ c ∧ c ≤ '9' := by
    intro c hc
    rcases List.mem_append.mp hc with h | h
    · exact hip c h
    · rw [List.mem_replicate] at h
      rw [h.2]
      decide
  have hne : ip ++ List.replicate 18 '0' ≠ [] := by
    intro h
    have := congrArg List.length h
    simp at this
  have hval : decVal (ip ++ List.replicate 18 '0') = decVal ip * 10 ^ 18 := by
    rw [decVal_append, decVal_zeros, List.length_replicate]
    simp
  unfold coinsToWei
  simp only [hsplit, List.headD_cons, List.length_nil, Nat.not_lt_zero, if_false,
    List.nil_append, Nat.sub_zero, List.length_replicate, gt_iff_lt, lt_self_iff_false,
    parseBig10_digits _ hdigits hne, hval]

end Sealer
